import Mathlib

/-!
The pod-template merge of `pkg/trait/pod.go`.

A shallow embedding of the four merge functions of the pod trait
(`mergeResources`, `mergeChanges`, `mergeArrays`, `findInArray`) over Go's
dynamically typed document values, followed by theorems about them.

Go passes maps and slices by reference and the merge mutates its `source`
argument in place.  The decoded documents are trees without sharing, every
location the merge writes is read at most by the call that wrote it, and the
functions hand back the mutated value, so the embedding passes values and
returns the updated one.  A run-time panic is the result `none`.

The merge reads a number only to print it as the identity of a change
(pod.go 162).  A number is an `int64` or a `float64`, as the two decoders of
pod.go 99-101 produce them, and `Sprint` prints each as `fmt` does: the
float64 1000000 as `1e+06`, the int64 1000000 as `1000000`.
-/

namespace Pod

/-- The decimal digits of a float64 as Go `strconv` finds them for the shortest
form (`decimalSlice`, strconv ftoa.go): `d` holds the fewest digits that
identify the number, and the decimal point stands `dp` places right of the
left end of `d`, so the magnitude is `0.d × 10^dp`.  Zero has no digits and
`dp = 0`.  So 1000000 is the digit `1` with `dp = 7`, and 1.5 is the digits
`15` with `dp = 1`.  An infinity or a NaN is no number of a JSON document. -/
structure decimalSlice where
  d : List Char
  dp : Int
  neg : Bool

/-- Go `d.nd`, the number of digits. -/
def decimalSlice.nd (digs : decimalSlice) : Int := (digs.d.length : Int)

/-- A number of a decoded document.  The pod template is decoded by
`k8s.io/apimachinery/pkg/util/json`, which yields an `int64` for an integer and
a `float64` otherwise; the changes are decoded by `ghodss/yaml`, which yields a
`float64` for every number (pod.go 99-101).  A `float64` is given by the digits
`strconv` prints it from. -/
inductive Number where
  | int64 (i : Int) : Number
  | float64 (digs : decimalSlice) : Number

/-- Go `interface{}` values reachable from a decoded YAML/JSON document.
`null` is the nil interface (a JSON null, and also what indexing a map at a
missing key yields); `nilmap` is a nil `map[string]interface{}` held in a
non-nil interface, which `mergeChanges` can return.  The merge never looks
inside a number, it only prints one (pod.go 162). -/
inductive Value where
  | null : Value
  | str (s : String) : Value
  | num (n : Number) : Value
  | bool (b : Bool) : Value
  | nilmap : Value
  | map (m : List (String × Value)) : Value
  | seq (l : List Value) : Value

/-- The entries of a non-nil Go map, keys unique, in the order `range` visits them. -/
abbrev Fields := List (String × Value)

/-- A Go variable of type `map[string]interface{}`: `none` is the nil map. -/
abbrev GoMap := Option Fields

/-- The comma-ok read `v, ok := m[k]` on the entries of a map. -/
def lookupField : Fields → String → Option Value
  | [], _ => none
  | (k, v) :: rest, key => if k = key then some v else lookupField rest key

/-- The assignment `m[k] = v` on the entries of a non-nil map. -/
def assignField : Fields → String → Value → Fields
  | [], key, v => [(key, v)]
  | (k, w) :: rest, key, v =>
    if k = key then (k, v) :: rest else (k, w) :: assignField rest key v

/-- The comma-ok read `v, ok := m[k]`; reading a nil map finds nothing. -/
def GoMap.lookup (m : GoMap) (k : String) : Option Value :=
  match m with
  | none => none
  | some fs => lookupField fs k

/-- The read `m[k]`: the nil interface when the key is missing. -/
def GoMap.index (m : GoMap) (k : String) : Value :=
  (GoMap.lookup m k).getD Value.null

/-- The assignment `m[k] = v`: a panic (`none`) on a nil map. -/
def GoMap.assign (m : GoMap) (k : String) (v : Value) : Option GoMap :=
  match m with
  | none => none
  | some fs => some (some (assignField fs k v))

/-- A map variable converted to `interface{}`. -/
def GoMap.toValue : GoMap → Value
  | none => Value.nilmap
  | some fs => Value.map fs

/-- The test `x == nil` on an interface value. -/
def Value.isNil : Value → Bool
  | .null => true
  | _ => false

/-- The comparison `x == s` of an interface value with a Go string. -/
def Value.eqString : Value → String → Bool
  | .str t, s => t == s
  | _, _ => false

/-- The checked assertion `m, ok := x.(map[string]interface{})`:
`none` when `ok` is false. -/
def Value.assertMap : Value → Option GoMap
  | .map m => some (some m)
  | .nilmap => some none
  | _ => none

/-- The assertion `m, _ := x.(map[string]interface{})`: the nil map when it fails. -/
def Value.asMap (x : Value) : GoMap :=
  (Value.assertMap x).getD none

/-- The assertion `l, _ := x.([]interface{})`: the nil slice when it fails. -/
def Value.asList : Value → List Value
  | .seq l => l
  | _ => []

/-- Insert a printed map entry into a list sorted by key. -/
def insertEntry (e : String × String) : List (String × String) → List (String × String)
  | [] => [e]
  | x :: rest => if e.1 < x.1 then e :: x :: rest else x :: insertEntry e rest

/-- Printed map entries sorted by key, the order `fmt` prints a map in. -/
def sortEntries : List (String × String) → List (String × String)
  | [] => []
  | e :: rest => insertEntry e (sortEntries rest)

/-- The byte `byte(n) + '0'` as a character. -/
def digitByte (n : Nat) : Char := Char.ofNat ((n + 48) % 256)

/-- Go `strconv` `fmtE` (ftoa.go), the `%e` form `-d.ddde±dd` with `prec`
digits after the point. -/
def fmtE (neg : Bool) (d : decimalSlice) (prec : Int) : List Char :=
  let sign := if neg then ['-'] else []
  let first := match d.d with
    | [] => '0'
    | ch :: _ => ch
  let m := min d.nd (prec + 1)
  let more :=
    if prec > 0 then
      '.' :: ((d.d.drop 1).take (m.toNat - 1)
        ++ List.replicate (prec.toNat + 1 - max 1 m.toNat) '0')
    else []
  let exp := if d.nd = 0 then 0 else d.dp - 1
  let ch := if exp < 0 then '-' else '+'
  let exp := exp.natAbs
  let digits :=
    if exp < 10 then ['0', digitByte exp]
    else if exp < 100 then [digitByte (exp / 10), digitByte (exp % 10)]
    else [digitByte (exp / 100), digitByte (exp / 10 % 10), digitByte (exp % 10)]
  sign ++ first :: more ++ 'e' :: ch :: digits

/-- Go `strconv` `fmtF` (ftoa.go), the `%f` form `-ddd.ddd` with `prec` digits
after the point. -/
def fmtF (neg : Bool) (d : decimalSlice) (prec : Int) : List Char :=
  let sign := if neg then ['-'] else []
  let integer :=
    if d.dp > 0 then
      let m := min d.nd d.dp
      d.d.take m.toNat ++ List.replicate (d.dp - m).toNat '0'
    else ['0']
  let fraction :=
    if prec > 0 then
      '.' :: (List.range prec.toNat).map fun i =>
        let j := d.dp + (i : Int)
        if 0 ≤ j ∧ j < d.nd then d.d.getD j.toNat '0' else '0'
    else []
  sign ++ integer ++ fraction

/-- Go `strconv` `formatDigits` (ftoa.go) for the format `g` with the shortest
precision, the form in which `fmt` prints a float64 under `%v`: the precision
is the number of digits, and the `%e` form is chosen when the decimal exponent
is below -4 or at least 6 (`eprec = 6` for the shortest form). -/
def formatDigits (digs : decimalSlice) : String :=
  let prec := digs.nd
  let eprec : Int := 6
  let exp := digs.dp - 1
  if exp < -4 ∨ exp ≥ eprec then String.mk (fmtE digs.neg digs (prec - 1))
  else String.mk (fmtF digs.neg digs (max (prec - digs.dp) 0))

/-- Go `fmt.Sprint` of a number: an `int64` in decimal (`%d`), a `float64` in
the shortest `%g` form. -/
def SprintNumber : Number → String
  | .int64 i => toString i
  | .float64 digs => formatDigits digs

mutual
/-- Go `fmt.Sprint` of one operand (the `%v` form of the value). -/
def Sprint : Value → String
  | .null => "<nil>"
  | .str s => s
  | .num n => SprintNumber n
  | .bool b => toString b
  | .nilmap => "map[]"
  | .map m =>
    "map[" ++ " ".intercalate ((sortEntries (SprintFields m)).map fun e => e.1 ++ ":" ++ e.2) ++ "]"
  | .seq l => "[" ++ " ".intercalate (SprintElems l) ++ "]"
/-- The entries of a map, each value printed. -/
def SprintFields : List (String × Value) → List (String × String)
  | [] => []
  | (k, v) :: rest => (k, Sprint v) :: SprintFields rest
/-- The elements of a slice, each printed. -/
def SprintElems : List Value → List String
  | [] => []
  | v :: rest => Sprint v :: SprintElems rest
end

/-- The loop of `findInArray` (pod.go 188-194) from index `i` on. -/
def findInArrayFrom (idString id : String) (i : Nat) : List Value → Int × Value
  | [] => (-1, Value.null)
  | e :: rest =>
    let arrayElement := Value.asMap e
    if Value.eqString (GoMap.index arrayElement idString) id then ((i : Int), e)
    else findInArrayFrom idString id (i + 1) rest

/-- Go `findInArray` (pod.go 187-196). -/
def findInArray (idString id : String) (array : List Value) : Int × Value :=
  findInArrayFrom idString id 0 array

/-- The identity field `mergeArrays` reads off `changes[0]` (pod.go 150-158). -/
def chooseIdString (tmp : GoMap) : String :=
  let idString := "name"
  let idString := if (GoMap.lookup tmp "id").isSome then "id" else idString
  let idString := if (GoMap.lookup tmp "key").isSome then "key" else idString
  idString

mutual
/-- Go `mergeChanges` (pod.go 116-147). -/
def mergeChanges (source changes : Value) : Option Value :=
  if Value.isNil source then some changes
  else
    match changes with
    | .seq changesList =>
      let sourceList := Value.asList source
      if sourceList.length = 0 ∨ changesList.length = 0 then some changes
      else mergeArrays sourceList changesList
    | .str s => if s = "null" then some Value.null else some changes
    | .map mapElement =>
      (mergeChangesRange (Value.asMap source) mapElement).map GoMap.toValue
    | .nilmap => some (GoMap.toValue (Value.asMap source))
    | .num _ => some changes
    | .bool _ => some changes
    | .null => some changes
termination_by (sizeOf changes, 0)
/-- The loop of `mergeChanges` over the incoming map (pod.go 141-144). -/
def mergeChangesRange (sourceElement : GoMap) (mapElement : Fields) : Option GoMap :=
  match mapElement with
  | [] => some sourceElement
  | (k, v) :: rest =>
    match mergeChanges (GoMap.index sourceElement k) v with
    | none => none
    | some merged =>
      match GoMap.assign sourceElement k merged with
      | none => none
      | some sourceElement => mergeChangesRange sourceElement rest
termination_by (sizeOf mapElement, 0)
/-- Go `mergeArrays` (pod.go 149-185); `changes[0]` panics on an empty slice. -/
def mergeArrays (source changes : List Value) : Option Value :=
  match changes with
  | [] => none
  | first :: rest =>
    match Value.assertMap first with
    | some tmp =>
      (mergeArraysRange (chooseIdString tmp) source (first :: rest)).map Value.seq
    | none => some (Value.seq (first :: rest))
termination_by (sizeOf changes, 1)
/-- The loop of `mergeArrays` over the remaining changes (pod.go 160-181). -/
def mergeArraysRange (idString : String) (source changes : List Value) :
    Option (List Value) :=
  match changes with
  | [] => some source
  | c :: rest =>
    match Value.assertMap c with
    | none => none
    | some change =>
      let id := Sprint (GoMap.index change idString)
      let found := findInArray idString id source
      let position := found.1.toNat
      let el := found.2
      if !Value.isNil el then
        match GoMap.lookup change "value" with
        | some v =>
          if Value.isNil v then
            mergeArraysRange idString (source.take position ++ source.drop (position + 1)) rest
          else
            match mergeChanges el c with
            | none => none
            | some merged => mergeArraysRange idString (source.set position merged) rest
        | none =>
          match mergeChanges el c with
          | none => none
          | some merged => mergeArraysRange idString (source.set position merged) rest
      else mergeArraysRange idString (source ++ [c]) rest
termination_by (sizeOf changes, 0)
end

/-- Go `mergeResources` (pod.go 109-114), by recursion over the entries `range` visits. -/
def mergeResources (source : GoMap) (changes : Fields) : Option GoMap :=
  match changes with
  | [] => some source
  | (k, v) :: rest =>
    match mergeChanges (GoMap.index source k) v with
    | none => none
    | some merged =>
      match GoMap.assign source k merged with
      | none => none
      | some source => mergeResources source rest

/-! ## Definitions used to state the properties -/

/-- The `int64` number `i` as a document value. -/
abbrev Value.int (i : Int) : Value := Value.num (Number.int64 i)

/-- The digits of a whole number without its trailing zeros. -/
def significantDigits (n : Nat) : List Char :=
  ((Nat.toDigits 10 n).reverse.dropWhile (fun ch => ch == '0')).reverse

/-- The `float64` of a whole number below 2^53 as a document value, which is
what a whole numeral of the changes decodes to: its digits without the trailing
zeros, the decimal point after as many places as the numeral has digits. -/
abbrev Value.float (n : Nat) : Value :=
  Value.num (Number.float64
    ⟨significantDigits n, if n = 0 then 0 else ((Nat.toDigits 10 n).length : Int), false⟩)

/-- The identity value `findInArray` compares for an element: `arrayElement[idString]`
after the unchecked map assertion (pod.go 189-191). -/
def identityOf (idString : String) (e : Value) : Value :=
  GoMap.index (Value.asMap e) idString

/-- The identity field as the specification words it: `key` when the first
element of the changes has a `key` field, otherwise `id` when it has an `id`
field, otherwise `name`. -/
def specIdentityField (first : Fields) : String :=
  if (lookupField first "key").isSome then "key"
  else if (lookupField first "id").isSome then "id"
  else "name"

/-- The element of the current sequence that a change is matched to under the
identity field `f` (pod.go 162-165): its position and the element, or `-1` and
nil when no element matches. -/
def matchOf (f : String) (current : List Value) (change : GoMap) : Int × Value :=
  findInArray f (Sprint (GoMap.index change f)) current

/-- One round of the reconciliation under the fixed identity field `f`, as the
specification words it: the change is matched by `f` against the current
sequence; when an element is found it is removed if the change holds an
explicit null `value` and otherwise replaced by its merge with the change;
when none is found the change is appended.  A change that is no mapping aborts. -/
def reconcileRound (f : String) (current : List Value) (c : Value) : Option (List Value) :=
  match Value.assertMap c with
  | none => none
  | some change =>
    let found := matchOf f current change
    if Value.isNil found.2 then some (current ++ [c])
    else
      match GoMap.lookup change "value" with
      | some Value.null => some (current.eraseIdx found.1.toNat)
      | _ => (mergeChanges found.2 c).map fun merged => current.set found.1.toNat merged

/-- Whether the element `e` and the change `c` hold the same identity string in
the field `f`. -/
def sameIdentity (f : String) (e c : Value) : Bool :=
  match identityOf f e, identityOf f c with
  | .str a, .str b => a == b
  | _, _ => false

/-- What the upsert property says of one source element: merged with the first
change of equal identity when there is one, unchanged otherwise. -/
def upsertElement (f : String) (changes : List Value) (e : Value) : Option Value :=
  match changes.find? (fun c => sameIdentity f e c) with
  | some c => mergeChanges e c
  | none => some e

/-- The upsert property over the elements of source, position by position; an
element merge that aborts aborts the whole. -/
def upsertElements (f : String) (changes : List Value) : List Value → Option (List Value)
  | [] => some []
  | e :: rest =>
    match upsertElement f changes e, upsertElements f changes rest with
    | some merged, some others => some (merged :: others)
    | _, _ => none

/-- The changes that match no element of source, in changes order. -/
def unmatchedChanges (f : String) (source changes : List Value) : List Value :=
  changes.filter (fun c => !source.any (fun e => sameIdentity f e c))

mutual
/-- A document built only from mappings and scalars: no sequence, no Null, no
nil map and no string "null", at any depth. -/
def Value.plain : Value → Bool
  | .null => false
  | .str s => decide (s ≠ "null")
  | .num _ => true
  | .bool _ => true
  | .nilmap => false
  | .map m => plainFields m
  | .seq _ => false
/-- Every value of the entries is plain. -/
def plainFields : List (String × Value) → Bool
  | [] => true
  | (_, v) :: rest => Value.plain v && plainFields rest
end

mutual
/-- The keys of every mapping of the document are pairwise distinct, as the keys
of a Go map are. -/
def Value.uniqueKeys : Value → Bool
  | .map m => decide ((m.map Prod.fst).Nodup) && uniqueKeysFields m
  | .seq l => uniqueKeysElems l
  | _ => true
/-- Every value of the entries has unique keys. -/
def uniqueKeysFields : List (String × Value) → Bool
  | [] => true
  | (_, v) :: rest => Value.uniqueKeys v && uniqueKeysFields rest
/-- Every element has unique keys. -/
def uniqueKeysElems : List Value → Bool
  | [] => true
  | v :: rest => Value.uniqueKeys v && uniqueKeysElems rest
end

/-- Insert an entry into entries listed by ascending key, before the first
entry whose key is not smaller. -/
def insertByKey {α : Type} (e : String × α) : List (String × α) → List (String × α)
  | [] => [e]
  | x :: rest => if x.1 < e.1 then x :: insertByKey e rest else e :: x :: rest

/-- The entries listed by ascending key; entries of equal key keep their order. -/
def sortByKey {α : Type} : List (String × α) → List (String × α)
  | [] => []
  | e :: rest => insertByKey e (sortByKey rest)

mutual
/-- The canonical enumeration of a document: the entries of every mapping, at
every depth, listed by ascending key.  Two enumerations of one Go value have
the same canonical enumeration. -/
def Value.canon : Value → Value
  | .null => .null
  | .str s => .str s
  | .num n => .num n
  | .bool b => .bool b
  | .nilmap => .nilmap
  | .map m => .map (sortByKey (canonFields m))
  | .seq l => .seq (canonElems l)
/-- The entries with every value in canonical enumeration. -/
def canonFields : List (String × Value) → List (String × Value)
  | [] => []
  | (k, v) :: rest => (k, Value.canon v) :: canonFields rest
/-- The elements, each in canonical enumeration. -/
def canonElems : List Value → List Value
  | [] => []
  | v :: rest => Value.canon v :: canonElems rest
end

/-- The canonical enumeration of a map variable. -/
def GoMap.canon (m : GoMap) : GoMap :=
  m.map (fun fs => sortByKey (canonFields fs))

/-- One round of the map loops of pod.go 110-112 and 141-143: merge the entry
into the value the map holds at its key and assign the result there. -/
def mergeStep (s : GoMap) (e : String × Value) : Option GoMap :=
  (mergeChanges (GoMap.index s e.1) e.2).bind (fun merged => GoMap.assign s e.1 merged)

/-- Merging `v` and merging `w` agree, up to the order of map entries, on
sources that agree up to the order of map entries; both abort or neither. -/
def MergeCongr (v w : Value) : Prop :=
  ∀ x y, Value.canon x = Value.canon y →
    (mergeChanges x v).map Value.canon = (mergeChanges y w).map Value.canon

/-! ## Unfolding lemmas -/

theorem mergeChanges_nil (changes : Value) : mergeChanges Value.null changes = some changes := by
  cases changes <;> simp [mergeChanges, Value.isNil]

theorem mergeChanges_str (source : Value) (s : String) (h : Value.isNil source = false) :
    mergeChanges source (Value.str s) =
      if s = "null" then some Value.null else some (Value.str s) := by
  rw [mergeChanges]; simp [h]

theorem mergeChanges_seq (source : Value) (cl : List Value) (h : Value.isNil source = false) :
    mergeChanges source (Value.seq cl) =
      if (Value.asList source).length = 0 ∨ cl.length = 0 then some (Value.seq cl)
      else mergeArrays (Value.asList source) cl := by
  rw [mergeChanges]; simp [h]

theorem mergeChanges_map (source : Value) (m : Fields) (h : Value.isNil source = false) :
    mergeChanges source (Value.map m) =
      (mergeChangesRange (Value.asMap source) m).map GoMap.toValue := by
  rw [mergeChanges]; simp [h]

theorem isNil_eq_false_iff (v : Value) : Value.isNil v = false ↔ v ≠ Value.null := by
  cases v <;> simp [Value.isNil]

theorem mergeChangesRange_nil_map (k : String) (v : Value) (rest : Fields) :
    mergeChangesRange none ((k, v) :: rest) = none := by
  rw [mergeChangesRange]
  cases mergeChanges (GoMap.index none k) v <;> simp [GoMap.assign]

/-! ## Reading and writing map entries -/

theorem lookupField_assignField_self (m : Fields) (k : String) (v : Value) :
    lookupField (assignField m k v) k = some v := by
  induction m with
  | nil => simp [assignField, lookupField]
  | cons e rest ih =>
    obtain ⟨k0, w⟩ := e
    by_cases h : k0 = k
    · simp [assignField, lookupField, h]
    · simp [assignField, lookupField, h, ih]

theorem lookupField_assignField_ne (m : Fields) (k key : String) (v : Value) (hne : key ≠ k) :
    lookupField (assignField m key v) k = lookupField m k := by
  induction m with
  | nil => simp [assignField, lookupField, hne]
  | cons e rest ih =>
    obtain ⟨k0, w⟩ := e
    by_cases h : k0 = key
    · subst h
      simp [assignField, lookupField, hne]
    · simp [assignField, lookupField, h, ih]

theorem lookupField_eq_none_of_not_mem (m : Fields) (f : String) (h : f ∉ m.map Prod.fst) :
    lookupField m f = none := by
  induction m with
  | nil => rfl
  | cons e rest ih =>
    obtain ⟨k, v⟩ := e
    simp only [List.map_cons, List.mem_cons, not_or] at h
    simp [lookupField, Ne.symm h.1, ih h.2]

theorem mergeChangesRange_field (f : String) (m : Fields) :
    ∀ (em : Fields) (res : GoMap), (m.map Prod.fst).Nodup →
      mergeChangesRange (some em) m = some res →
      ∃ em2, res = some em2 ∧
        ((lookupField m f = none ∧ lookupField em2 f = lookupField em f) ∨
         (∃ v r, lookupField m f = some v ∧ mergeChanges (GoMap.index (some em) f) v = some r ∧
            lookupField em2 f = some r)) := by
  induction m with
  | nil =>
    intro em res _ h
    simp [mergeChangesRange] at h
    exact ⟨em, h.symm, Or.inl ⟨rfl, rfl⟩⟩
  | cons e rest ih =>
    intro em res hnd h
    obtain ⟨k, v⟩ := e
    rw [mergeChangesRange] at h
    cases hm : mergeChanges (GoMap.index (some em) k) v with
    | none => simp [hm] at h
    | some merged =>
      simp only [hm, GoMap.assign] at h
      simp only [List.map_cons, List.nodup_cons] at hnd
      obtain ⟨em2, hres, hcase⟩ := ih (assignField em k merged) res hnd.2 h
      refine ⟨em2, hres, ?_⟩
      by_cases hk : k = f
      · subst hk
        right
        refine ⟨v, merged, by simp [lookupField], hm, ?_⟩
        have hnone := lookupField_eq_none_of_not_mem rest k hnd.1
        rcases hcase with ⟨_, h2⟩ | ⟨v2, r2, h1, _, _⟩
        · rw [h2, lookupField_assignField_self]
        · rw [hnone] at h1; cases h1
      · have hidx : GoMap.index (some (assignField em k merged)) f = GoMap.index (some em) f := by
          simp [GoMap.index, GoMap.lookup, lookupField_assignField_ne _ _ _ _ hk]
        rcases hcase with ⟨h1, h2⟩ | ⟨v2, r2, h1, h2, h3⟩
        · left
          exact ⟨by simp [lookupField, hk, h1], by rw [h2, lookupField_assignField_ne _ _ _ _ hk]⟩
        · right
          exact ⟨v2, r2, by simp [lookupField, hk, h1], by rw [← hidx]; exact h2, h3⟩

/-! ## Identity lookup -/

theorem eqString_eq_true_iff (v : Value) (s : String) :
    Value.eqString v s = true ↔ v = Value.str s := by
  cases v <;> simp [Value.eqString]

theorem eqString_eq_false_of_ne (v : Value) (s : String) (h : v ≠ Value.str s) :
    Value.eqString v s = false := by
  cases hb : Value.eqString v s with
  | false => rfl
  | true => exact absurd ((eqString_eq_true_iff v s).1 hb) h

theorem identityOf_map (f : String) (m : Fields) (v : Value) (h : lookupField m f = some v) :
    identityOf f (Value.map m) = v := by
  simp [identityOf, Value.asMap, Value.assertMap, GoMap.index, GoMap.lookup, h]

theorem map_of_identity (f : String) (e : Value) (s : String)
    (h : identityOf f e = Value.str s) :
    ∃ em, e = Value.map em ∧ lookupField em f = some (Value.str s) := by
  cases e with
  | map em =>
    refine ⟨em, rfl, ?_⟩
    simp only [identityOf, Value.asMap, Value.assertMap, Option.getD_some, GoMap.index,
      GoMap.lookup] at h
    cases hl : lookupField em f with
    | none => simp [hl] at h
    | some v => simp [hl] at h; rw [h]
  | _ => simp [identityOf, Value.asMap, Value.assertMap, GoMap.index, GoMap.lookup] at h

theorem isNil_false_of_identity (f : String) (e : Value) (s : String)
    (h : identityOf f e = Value.str s) : Value.isNil e = false := by
  cases e <;> simp [identityOf, Value.asMap, Value.assertMap, GoMap.index, GoMap.lookup,
    Value.isNil] at h ⊢

theorem findInArrayFrom_none (f id : String) (l : List Value) :
    ∀ i, (∀ e ∈ l, Value.eqString (identityOf f e) id = false) →
      findInArrayFrom f id i l = (-1, Value.null) := by
  induction l with
  | nil => intro i _; rfl
  | cons e rest ih =>
    intro i h
    have he := h e (List.mem_cons_self _ _)
    unfold identityOf at he
    rw [findInArrayFrom]
    simp only [he, Bool.false_eq_true, if_false]
    exact ih (i + 1) (fun x hx => h x (List.mem_cons_of_mem _ hx))

theorem findInArrayFrom_found (f id : String) (pre : List Value) (e : Value) (post : List Value) :
    ∀ i, (∀ x ∈ pre, Value.eqString (identityOf f x) id = false) →
      Value.eqString (identityOf f e) id = true →
      findInArrayFrom f id i (pre ++ e :: post) = (((i + pre.length : Nat) : Int), e) := by
  induction pre with
  | nil =>
    intro i _ he
    unfold identityOf at he
    simp [findInArrayFrom, he]
  | cons x rest ih =>
    intro i h he
    have hx := h x (List.mem_cons_self _ _)
    unfold identityOf at hx
    rw [List.cons_append, findInArrayFrom]
    simp only [hx, Bool.false_eq_true, if_false]
    rw [ih (i + 1) (fun y hy => h y (List.mem_cons_of_mem _ hy)) he]
    simp [Nat.add_comm, Nat.add_left_comm]

theorem findInArray_at (f s : String) (source : List Value) (p : Nat) (hp : p < source.length)
    (hsp : identityOf f (source.get ⟨p, hp⟩) = Value.str s)
    (hdist : source.Pairwise (fun a b => identityOf f a ≠ identityOf f b)) :
    findInArray f s source = ((p : Int), source.get ⟨p, hp⟩) := by
  have hsplit : source = source.take p ++ source.get ⟨p, hp⟩ :: source.drop (p + 1) := by
    rw [List.get_eq_getElem, ← List.drop_eq_getElem_cons hp, List.take_append_drop]
  have hpre : ∀ x ∈ source.take p, Value.eqString (identityOf f x) s = false := by
    intro x hx
    apply eqString_eq_false_of_ne
    obtain ⟨i, hi, rfl⟩ := List.getElem_of_mem hx
    rw [List.length_take] at hi
    have hip : i < p := lt_of_lt_of_le hi (Nat.min_le_left _ _)
    rw [List.getElem_take]
    have := (List.pairwise_iff_getElem.1 hdist) i p (lt_trans hip hp) hp hip
    rw [← hsp]
    simpa [List.get_eq_getElem] using this
  have := findInArrayFrom_found f s (source.take p) (source.get ⟨p, hp⟩) (source.drop (p + 1)) 0
    hpre ((eqString_eq_true_iff _ _).2 hsp)
  rw [← hsplit] at this
  rw [findInArray, this]
  simp [List.length_take, Nat.min_eq_left (Nat.le_of_lt hp)]

theorem sameIdentity_eq_eqString (f : String) (e c : Value) (s : String)
    (hc : identityOf f c = Value.str s) :
    sameIdentity f e c = Value.eqString (identityOf f e) s := by
  unfold sameIdentity
  rw [hc]
  cases identityOf f e <;> simp [Value.eqString]

theorem sameIdentity_false_of_ne (f : String) (e c : Value) (h : identityOf f e ≠ identityOf f c) :
    sameIdentity f e c = false := by
  unfold sameIdentity
  split
  · next a b ha hb =>
    simp only [beq_eq_false_iff_ne, ne_eq]
    intro hab
    exact h (by rw [ha, hb, hab])
  · rfl

theorem sameIdentity_false_of_null (f : String) (e c : Value) (h : identityOf f e = Value.null) :
    sameIdentity f e c = false := by
  unfold sameIdentity
  rw [h]

theorem sameIdentity_true (f : String) (a c : Value) (h : sameIdentity f a c = true) :
    identityOf f a = identityOf f c := by
  unfold sameIdentity at h
  split at h
  · next x y hx hy =>
    rw [hx, hy, eq_of_beq h]
  · cases h

theorem merged_identity (f s : String) (em m : Fields) (r : Value)
    (hnd : (m.map Prod.fst).Nodup) (he : lookupField em f = some (Value.str s))
    (hc : lookupField m f = some (Value.str s))
    (hm : mergeChanges (Value.map em) (Value.map m) = some r) :
    identityOf f r = Value.str s ∨ identityOf f r = Value.null := by
  rw [mergeChanges_map (Value.map em) m rfl] at hm
  simp only [Value.asMap, Value.assertMap, Option.getD_some, Option.map_eq_some'] at hm
  obtain ⟨res, hres, hr⟩ := hm
  obtain ⟨em2, rfl, hcase⟩ := mergeChangesRange_field f m em res hnd hres
  subst hr
  rcases hcase with ⟨h1, _⟩ | ⟨v, r2, h1, h2, h3⟩
  · rw [hc] at h1; cases h1
  · rw [hc] at h1
    cases h1
    have hidx : GoMap.index (some em) f = Value.str s := by
      simp [GoMap.index, GoMap.lookup, he]
    rw [hidx, mergeChanges_str (Value.str s) s rfl] at h2
    simp only [GoMap.toValue]
    rw [identityOf_map f em2 r2 h3]
    by_cases hs : s = "null"
    · simp [hs] at h2
      right; exact h2.symm
    · simp [hs] at h2
      left; exact h2.symm

/-! ## One round of the mergeArrays loop -/

theorem mergeArraysRange_append (f : String) (source : List Value) (c : Value) (change : GoMap)
    (rest : List Value) (hc : Value.assertMap c = some change)
    (hfind : findInArray f (Sprint (GoMap.index change f)) source = (-1, Value.null)) :
    mergeArraysRange f source (c :: rest) = mergeArraysRange f (source ++ [c]) rest := by
  rw [mergeArraysRange]
  simp [hc, hfind, Value.isNil]

theorem mergeArraysRange_delete (f : String) (source : List Value) (c : Value) (change : GoMap)
    (rest : List Value) (position : Nat) (el : Value) (hc : Value.assertMap c = some change)
    (hfind : findInArray f (Sprint (GoMap.index change f)) source = ((position : Int), el))
    (hel : Value.isNil el = false) (hval : GoMap.lookup change "value" = some Value.null) :
    mergeArraysRange f source (c :: rest)
      = mergeArraysRange f (source.eraseIdx position) rest := by
  rw [mergeArraysRange]
  simp [hc, hfind, hel, hval, List.eraseIdx_eq_take_drop_succ]
  simp [Value.isNil]

theorem mergeArraysRange_merge (f : String) (source : List Value) (c : Value) (change : GoMap)
    (rest : List Value) (position : Nat) (el : Value) (hc : Value.assertMap c = some change)
    (hfind : findInArray f (Sprint (GoMap.index change f)) source = ((position : Int), el))
    (hel : Value.isNil el = false) (hval : GoMap.lookup change "value" ≠ some Value.null) :
    mergeArraysRange f source (c :: rest)
      = match mergeChanges el c with
        | none => none
        | some merged => mergeArraysRange f (source.set position merged) rest := by
  rw [mergeArraysRange]
  simp only [hc, hfind, hel, Int.toNat_ofNat, Bool.not_false, if_true]
  cases hv : GoMap.lookup change "value" with
  | none => rfl
  | some v =>
    have hvn : Value.isNil v = false := by
      rw [isNil_eq_false_iff]
      intro h
      exact hval (by rw [hv, h])
    simp only [hvn, Bool.false_eq_true, if_false]

theorem set_length_append (pre : List Value) (e r : Value) (tl : List Value) :
    (pre ++ e :: tl).set pre.length r = pre ++ r :: tl := by
  induction pre with
  | nil => rfl
  | cons x rest ih => simp [ih]

theorem mergeArraysRange_all_new (f : String) (changes : List Value) :
    ∀ source : List Value,
      (∀ c ∈ changes, ∃ m s, c = Value.map m ∧ lookupField m f = some (Value.str s)) →
      changes.Pairwise (fun a b => identityOf f a ≠ identityOf f b) →
      (∀ c ∈ changes, ∀ e ∈ source, identityOf f e ≠ identityOf f c) →
      mergeArraysRange f source changes = some (source ++ changes) := by
  induction changes with
  | nil => intro source _ _ _; simp [mergeArraysRange]
  | cons c rest ih =>
    intro source hchg hdist hnew
    obtain ⟨m, s, rfl, hm⟩ := hchg c (List.mem_cons_self _ _)
    have hidc : identityOf f (Value.map m) = Value.str s := identityOf_map f m _ hm
    have hfind : findInArray f (Sprint (GoMap.index (some m) f)) source = (-1, Value.null) := by
      have : Sprint (GoMap.index (some m) f) = s := by
        simp [GoMap.index, GoMap.lookup, hm, Sprint]
      rw [this, findInArray]
      apply findInArrayFrom_none
      intro e he
      apply eqString_eq_false_of_ne
      rw [← hidc]
      exact hnew _ (List.mem_cons_self _ _) e he
    rw [mergeArraysRange_append f source (Value.map m) (some m) rest rfl hfind]
    rw [ih (source ++ [Value.map m]) (fun c hc => hchg c (List.mem_cons_of_mem _ hc))
      (List.Pairwise.of_cons hdist)]
    · simp
    · intro c hc e he
      rcases List.mem_append.1 he with he | he
      · exact hnew c (List.mem_cons_of_mem _ hc) e he
      · rw [List.mem_singleton] at he
        subst he
        exact (List.pairwise_cons.1 hdist).1 c hc

/-! ## The upsert, element by element -/

theorem upsertElement_cons_of_not_same (f : String) (c : Value) (rest : List Value) (e : Value)
    (h : sameIdentity f e c = false) :
    upsertElement f (c :: rest) e = upsertElement f rest e := by
  simp [upsertElement, List.find?, h]

theorem upsertElement_cons_of_same (f : String) (c : Value) (rest : List Value) (e : Value)
    (h : sameIdentity f e c = true) :
    upsertElement f (c :: rest) e = mergeChanges e c := by
  simp [upsertElement, List.find?, h]

theorem upsertElement_of_no_match (f : String) (rem : List Value) (e : Value)
    (h : ∀ c ∈ rem, sameIdentity f e c = false) :
    upsertElement f rem e = some e := by
  have : rem.find? (fun c => sameIdentity f e c) = none := by
    rw [List.find?_eq_none]
    intro c hc
    simp [h c hc]
  simp [upsertElement, this]

theorem upsertElements_congr (f : String) (r1 r2 : List Value) (A : List Value)
    (h : ∀ e ∈ A, upsertElement f r1 e = upsertElement f r2 e) :
    upsertElements f r1 A = upsertElements f r2 A := by
  induction A with
  | nil => rfl
  | cons e rest ih =>
    simp only [upsertElements]
    rw [h e (List.mem_cons_self _ _), ih (fun x hx => h x (List.mem_cons_of_mem _ hx))]

theorem upsertElements_split (f : String) (rem pre : List Value) (e : Value) (post : List Value) :
    upsertElements f rem (pre ++ e :: post)
      = match upsertElements f rem pre, upsertElement f rem e, upsertElements f rem post with
        | some a, some b, some c => some (a ++ b :: c)
        | _, _, _ => none := by
  induction pre with
  | nil =>
    simp only [List.nil_append, upsertElements]
    cases upsertElement f rem e <;> cases upsertElements f rem post <;> rfl
  | cons x rest ih =>
    rw [List.cons_append, upsertElements, ih, upsertElements]
    cases upsertElement f rem x <;> cases upsertElements f rem rest <;>
      cases upsertElement f rem e <;> cases upsertElements f rem post <;> rfl

theorem upsertElements_of_no_match (f : String) (rem A : List Value)
    (h : ∀ e ∈ A, upsertElement f rem e = some e) : upsertElements f rem A = some A := by
  induction A with
  | nil => rfl
  | cons e rest ih =>
    rw [upsertElements, h e (List.mem_cons_self _ _),
      ih (fun x hx => h x (List.mem_cons_of_mem _ hx))]

theorem upsertElements_length (f : String) (changes : List Value) :
    ∀ (source merged : List Value), upsertElements f changes source = some merged →
      merged.length = source.length := by
  intro source
  induction source with
  | nil => intro merged h; simp [upsertElements] at h; subst h; rfl
  | cons e rest ih =>
    intro merged h
    rw [upsertElements] at h
    cases h1 : upsertElement f changes e with
    | none => simp [h1] at h
    | some x =>
      cases h2 : upsertElements f changes rest with
      | none => simp [h1, h2] at h
      | some others =>
        simp [h1, h2] at h
        subst h
        simp [ih others h2]

theorem unmatchedChanges_cons_of_matched (f : String) (A : List Value) (c : Value)
    (rest : List Value) (e : Value) (he : e ∈ A) (hs : sameIdentity f e c = true) :
    unmatchedChanges f A (c :: rest) = unmatchedChanges f A rest := by
  have : A.any (fun e => sameIdentity f e c) = true := List.any_eq_true.2 ⟨e, he, hs⟩
  simp [unmatchedChanges, List.filter_cons, this]

theorem unmatchedChanges_cons_of_unmatched (f : String) (A : List Value) (c : Value)
    (rest : List Value) (h : ∀ e ∈ A, sameIdentity f e c = false) :
    unmatchedChanges f A (c :: rest) = c :: unmatchedChanges f A rest := by
  have : A.any (fun e => sameIdentity f e c) = false := by
    rw [List.any_eq_false]
    intro e he
    simp [h e he]
  simp [unmatchedChanges, List.filter_cons, this]

theorem unmatchedChanges_replace (f : String) (pre post rest : List Value) (e r : Value)
    (he : ∀ c ∈ rest, sameIdentity f e c = false) (hr : ∀ c ∈ rest, sameIdentity f r c = false) :
    unmatchedChanges f (pre ++ e :: post) rest = unmatchedChanges f (pre ++ r :: post) rest := by
  unfold unmatchedChanges
  apply List.filter_congr
  intro c hc
  simp [List.any_append, List.any_cons, he c hc, hr c hc]

theorem mergeArraysRange_upsert (f : String) (rem : List Value) :
    ∀ (A B : List Value),
      (∀ c ∈ rem, ∃ m s, c = Value.map m ∧ (m.map Prod.fst).Nodup ∧
        lookupField m f = some (Value.str s) ∧ lookupField m "value" ≠ some Value.null) →
      rem.Pairwise (fun a b => identityOf f a ≠ identityOf f b) →
      A.Pairwise (fun a b => ∀ c ∈ rem,
        ¬ (sameIdentity f a c = true ∧ sameIdentity f b c = true)) →
      (∀ c ∈ rem, ∀ e ∈ B, sameIdentity f e c = false) →
      mergeArraysRange f (A ++ B) rem
        = (upsertElements f rem A).map
            (fun merged => merged ++ B ++ unmatchedChanges f A rem) := by
  induction rem with
  | nil =>
    intro A B _ _ _ _
    rw [upsertElements_of_no_match f [] A (fun e _ => upsertElement_of_no_match f [] e
      (fun c hc => absurd hc (List.not_mem_nil c)))]
    simp [mergeArraysRange, unmatchedChanges]
  | cons c rest ih =>
    intro A B hrem hdist hA hB
    obtain ⟨m, s, rfl, hnd, hm, hval⟩ := hrem _ (List.mem_cons_self _ _)
    have hidc : identityOf f (Value.map m) = Value.str s := identityOf_map f m _ hm
    have hsp : Sprint (GoMap.index (some m) f) = s := by
      simp [GoMap.index, GoMap.lookup, hm, Sprint]
    have hrem2 : ∀ c ∈ rest, ∃ m s, c = Value.map m ∧ (m.map Prod.fst).Nodup ∧
        lookupField m f = some (Value.str s) ∧ lookupField m "value" ≠ some Value.null :=
      fun c hc => hrem c (List.mem_cons_of_mem _ hc)
    have hdist2 := List.Pairwise.of_cons hdist
    have hne : ∀ c ∈ rest, Value.str s ≠ identityOf f c := by
      intro c hc
      rw [← hidc]
      exact (List.pairwise_cons.1 hdist).1 c hc
    have hval2 : GoMap.lookup (some m) "value" ≠ some Value.null := by
      simpa [GoMap.lookup] using hval
    by_cases hex : ∃ e ∈ A, sameIdentity f e (Value.map m) = true
    · obtain ⟨e, heA, hse⟩ := hex
      obtain ⟨pre, post, rfl⟩ := List.append_of_mem heA
      obtain ⟨hPpre, hPpost, hcross⟩ := List.pairwise_append.1 hA
      have hpre : ∀ x ∈ pre, sameIdentity f x (Value.map m) = false := by
        intro x hx
        have := hcross x hx e (List.mem_cons_self _ _) _ (List.mem_cons_self _ _)
        cases hsx : sameIdentity f x (Value.map m) with
        | false => rfl
        | true => exact absurd ⟨hsx, hse⟩ this
      have hpost : ∀ x ∈ post, sameIdentity f x (Value.map m) = false := by
        intro x hx
        have := (List.pairwise_cons.1 hPpost).1 x hx _ (List.mem_cons_self _ _)
        cases hsx : sameIdentity f x (Value.map m) with
        | false => rfl
        | true => exact absurd ⟨hse, hsx⟩ this
      have hide : identityOf f e = Value.str s := by
        rw [sameIdentity_eq_eqString f e _ s hidc] at hse
        exact (eqString_eq_true_iff _ _).1 hse
      obtain ⟨em, rfl, hem⟩ := map_of_identity f e s hide
      have he_rest : ∀ c ∈ rest, sameIdentity f (Value.map em) c = false := by
        intro c hc
        apply sameIdentity_false_of_ne
        rw [hide]
        exact hne c hc
      have hfind : findInArray f (Sprint (GoMap.index (some m) f)) (pre ++ Value.map em :: post ++ B)
          = ((pre.length : Int), Value.map em) := by
        rw [hsp, findInArray, List.append_assoc, List.cons_append]
        have := findInArrayFrom_found f s pre (Value.map em) (post ++ B) 0
          (fun x hx => by rw [← sameIdentity_eq_eqString f x _ s hidc]; exact hpre x hx)
          ((eqString_eq_true_iff _ _).2 hide)
        simpa using this
      rw [mergeArraysRange_merge f _ (Value.map m) (some m) rest pre.length (Value.map em) rfl
        hfind rfl hval2]
      rw [upsertElements_split, upsertElement_cons_of_same f _ rest _ hse]
      cases hmc : mergeChanges (Value.map em) (Value.map m) with
      | none =>
        cases upsertElements f (Value.map m :: rest) pre <;> rfl
      | some r =>
        have hr : ∀ c ∈ rest, sameIdentity f r c = false := by
          intro c hc
          rcases merged_identity f s em m r hnd hem hm hmc with h | h
          · apply sameIdentity_false_of_ne
            rw [h]
            exact hne c hc
          · exact sameIdentity_false_of_null f r c h
        have hA2 : (pre ++ r :: post).Pairwise (fun a b => ∀ c ∈ rest,
            ¬ (sameIdentity f a c = true ∧ sameIdentity f b c = true)) := by
          rw [List.pairwise_append]
          refine ⟨hPpre.imp (fun h c hc => h c (List.mem_cons_of_mem _ hc)), ?_, ?_⟩
          · rw [List.pairwise_cons]
            refine ⟨fun b _ c hc h => ?_, (List.Pairwise.of_cons hPpost).imp
              (fun h c hc => h c (List.mem_cons_of_mem _ hc))⟩
            rw [hr c hc] at h
            exact Bool.false_ne_true h.1
          · intro a ha b hb c hc h
            rcases List.mem_cons.1 hb with rfl | hb
            · rw [hr c hc] at h
              exact Bool.false_ne_true h.2
            · exact hcross a ha b (List.mem_cons_of_mem _ hb) c (List.mem_cons_of_mem _ hc) h
        have hset : (pre ++ Value.map em :: post ++ B).set pre.length r
            = (pre ++ r :: post) ++ B := by
          rw [List.append_assoc, List.cons_append, set_length_append, List.append_assoc,
            List.cons_append]
        simp only []
        rw [hset, ih (pre ++ r :: post) B hrem2 hdist2 hA2
          (fun c hc e he => hB c (List.mem_cons_of_mem _ hc) e he)]
        rw [upsertElements_split, upsertElement_of_no_match f rest r hr]
        rw [upsertElements_congr f (Value.map m :: rest) rest pre
          (fun x hx => upsertElement_cons_of_not_same f _ rest x (hpre x hx))]
        rw [upsertElements_congr f (Value.map m :: rest) rest post
          (fun x hx => upsertElement_cons_of_not_same f _ rest x (hpost x hx))]
        rw [unmatchedChanges_cons_of_matched f _ _ rest (Value.map em) heA hse]
        rw [unmatchedChanges_replace f pre post rest (Value.map em) r he_rest hr]
    · have hno : ∀ e ∈ A, sameIdentity f e (Value.map m) = false := by
        intro e he
        cases hs : sameIdentity f e (Value.map m) with
        | false => rfl
        | true => exact absurd ⟨e, he, hs⟩ hex
      have hfind : findInArray f (Sprint (GoMap.index (some m) f)) (A ++ B)
          = (-1, Value.null) := by
        rw [hsp, findInArray]
        apply findInArrayFrom_none
        intro e he
        rw [← sameIdentity_eq_eqString f e _ s hidc]
        rcases List.mem_append.1 he with he | he
        · exact hno e he
        · exact hB _ (List.mem_cons_self _ _) e he
      rw [mergeArraysRange_append f _ (Value.map m) (some m) rest rfl hfind, List.append_assoc]
      rw [ih A (B ++ [Value.map m]) hrem2 hdist2
        (hA.imp (fun h c hc => h c (List.mem_cons_of_mem _ hc)))]
      · rw [upsertElements_congr f (Value.map m :: rest) rest A
          (fun x hx => upsertElement_cons_of_not_same f _ rest x (hno x hx))]
        rw [unmatchedChanges_cons_of_unmatched f A _ rest hno]
        cases upsertElements f rest A <;> simp
      · intro c hc e he
        rcases List.mem_append.1 he with he | he
        · exact hB c (List.mem_cons_of_mem _ hc) e he
        · rw [List.mem_singleton] at he
          subst he
          apply sameIdentity_false_of_ne
          rw [hidc]
          exact hne c hc

/-! ## C1: identity-based upsert -/

/-- C1 fails on the code: a matched change that holds a mapping where the source
element holds a scalar makes the element merge assign into a nil map
(pod.go 139-142), and mergeArrays aborts instead of returning the merged
sequence. -/
theorem identity_based_upsert_aborts :
    mergeArrays [Value.map [("name", Value.str "a"), ("v", Value.int 1)]]
      [Value.map [("name", Value.str "a"), ("v", Value.map [("x", Value.float 1)])]] = none := by
  have hid : chooseIdString (some [("name", Value.str "a"), ("v", Value.map [("x", Value.float 1)])])
      = "name" := by
    simp [chooseIdString, GoMap.lookup, lookupField]
  have hfind : findInArray "name"
      (Sprint (GoMap.index (some [("name", Value.str "a"), ("v", Value.map [("x", Value.float 1)])])
        "name"))
      [Value.map [("name", Value.str "a"), ("v", Value.int 1)]]
      = (((0 : Nat) : Int), Value.map [("name", Value.str "a"), ("v", Value.int 1)]) := by
    simp [findInArray, findInArrayFrom, Sprint, GoMap.lookup, GoMap.index, lookupField,
      Value.eqString, Value.assertMap, Value.asMap]
  have hmerge : mergeChanges (Value.map [("name", Value.str "a"), ("v", Value.int 1)])
      (Value.map [("name", Value.str "a"), ("v", Value.map [("x", Value.float 1)])]) = none := by
    simp [mergeChanges, mergeChangesRange, GoMap.lookup, GoMap.index, GoMap.assign,
      lookupField, assignField, Value.isNil, Value.assertMap, Value.asMap]
  rw [mergeArrays]
  simp only [Value.assertMap]
  rw [hid, mergeArraysRange_merge "name" [Value.map [("name", Value.str "a"), ("v", Value.int 1)]]
    (Value.map [("name", Value.str "a"), ("v", Value.map [("x", Value.float 1)])])
    (some [("name", Value.str "a"), ("v", Value.map [("x", Value.float 1)])]) [] 0
    (Value.map [("name", Value.str "a"), ("v", Value.int 1)]) rfl hfind rfl
    (by simp [GoMap.lookup, lookupField]), hmerge]
  rfl

/-- Identity-based upsert wherever no element merge aborts: with string identities
pairwise distinct within source and within changes and no change holding a
null `value`, mergeArrays returns the source elements, each merged with the
change of equal identity or unchanged, followed by the unmatched changes in
order; it aborts exactly when one of those element merges aborts. -/
theorem identity_based_upsert (source : List Value) (first : Fields) (rest : List Value)
    (hsd : source.Pairwise (fun a b =>
      identityOf (chooseIdString (some first)) a ≠ identityOf (chooseIdString (some first)) b))
    (hchg : ∀ c ∈ Value.map first :: rest, ∃ m s, c = Value.map m ∧ (m.map Prod.fst).Nodup ∧
      lookupField m (chooseIdString (some first)) = some (Value.str s) ∧
      lookupField m "value" ≠ some Value.null)
    (hcd : (Value.map first :: rest).Pairwise (fun a b =>
      identityOf (chooseIdString (some first)) a ≠ identityOf (chooseIdString (some first)) b)) :
    mergeArrays source (Value.map first :: rest)
      = (upsertElements (chooseIdString (some first)) (Value.map first :: rest) source).map
          (fun merged => Value.seq (merged ++
            unmatchedChanges (chooseIdString (some first)) source (Value.map first :: rest))) ∧
    ∀ merged, upsertElements (chooseIdString (some first)) (Value.map first :: rest) source
      = some merged → merged.length = source.length := by
  refine ⟨?_, upsertElements_length _ _ source⟩
  rw [mergeArrays]
  simp only [Value.assertMap]
  have hA : source.Pairwise (fun a b => ∀ c ∈ Value.map first :: rest,
      ¬ (sameIdentity (chooseIdString (some first)) a c = true ∧
         sameIdentity (chooseIdString (some first)) b c = true)) :=
    hsd.imp (fun hab c _ h => hab ((sameIdentity_true _ _ _ h.1).trans
      (sameIdentity_true _ _ _ h.2).symm))
  have := mergeArraysRange_upsert (chooseIdString (some first)) (Value.map first :: rest)
    source [] hchg hcd hA (fun c _ e he => absurd he (List.not_mem_nil e))
  rw [List.append_nil] at this
  rw [this]
  cases upsertElements (chooseIdString (some first)) (Value.map first :: rest) source <;> simp

theorem identity_based_upsert_witness :
    mergeArrays
        [Value.map [("name", Value.str "a"), ("v", Value.int 1)],
         Value.map [("name", Value.str "b"), ("v", Value.int 2)]]
        [Value.map [("name", Value.str "b"), ("v", Value.float 9)],
         Value.map [("name", Value.str "c"), ("v", Value.float 3)]]
      = some (Value.seq
        [Value.map [("name", Value.str "a"), ("v", Value.int 1)],
         Value.map [("name", Value.str "b"), ("v", Value.float 9)],
         Value.map [("name", Value.str "c"), ("v", Value.float 3)]]) := by
  have hid : chooseIdString (some [("name", Value.str "b"), ("v", Value.float 9)]) = "name" := by
    simp [chooseIdString, GoMap.lookup, lookupField]
  have hmerge : mergeChanges (Value.map [("name", Value.str "b"), ("v", Value.int 2)])
      (Value.map [("name", Value.str "b"), ("v", Value.float 9)])
      = some (Value.map [("name", Value.str "b"), ("v", Value.float 9)]) := by
    simp [mergeChanges, mergeChangesRange, GoMap.lookup, GoMap.index, GoMap.assign,
      GoMap.toValue, lookupField, assignField, Value.isNil, Value.assertMap, Value.asMap]
  have ha : upsertElement "name"
      [Value.map [("name", Value.str "b"), ("v", Value.float 9)],
       Value.map [("name", Value.str "c"), ("v", Value.float 3)]]
      (Value.map [("name", Value.str "a"), ("v", Value.int 1)])
      = some (Value.map [("name", Value.str "a"), ("v", Value.int 1)]) :=
    upsertElement_of_no_match _ _ _ (by
      simp [sameIdentity, identityOf, Value.asMap, Value.assertMap, GoMap.index, GoMap.lookup,
        lookupField])
  have hb : upsertElement "name"
      [Value.map [("name", Value.str "b"), ("v", Value.float 9)],
       Value.map [("name", Value.str "c"), ("v", Value.float 3)]]
      (Value.map [("name", Value.str "b"), ("v", Value.int 2)])
      = some (Value.map [("name", Value.str "b"), ("v", Value.float 9)]) := by
    rw [upsertElement_cons_of_same _ _ _ _ (by
      simp [sameIdentity, identityOf, Value.asMap, Value.assertMap, GoMap.index, GoMap.lookup,
        lookupField]), hmerge]
  have hu : unmatchedChanges "name"
      [Value.map [("name", Value.str "a"), ("v", Value.int 1)],
       Value.map [("name", Value.str "b"), ("v", Value.int 2)]]
      [Value.map [("name", Value.str "b"), ("v", Value.float 9)],
       Value.map [("name", Value.str "c"), ("v", Value.float 3)]]
      = [Value.map [("name", Value.str "c"), ("v", Value.float 3)]] := by
    simp [unmatchedChanges, sameIdentity, identityOf, Value.asMap, Value.assertMap, GoMap.index,
      GoMap.lookup, lookupField]
  have h := (identity_based_upsert
    [Value.map [("name", Value.str "a"), ("v", Value.int 1)],
     Value.map [("name", Value.str "b"), ("v", Value.int 2)]]
    [("name", Value.str "b"), ("v", Value.float 9)]
    [Value.map [("name", Value.str "c"), ("v", Value.float 3)]]
    (by simp [identityOf, chooseIdString, Value.asMap, Value.assertMap, GoMap.index,
      GoMap.lookup, lookupField])
    (by simp [chooseIdString, GoMap.lookup, lookupField])
    (by simp [identityOf, chooseIdString, Value.asMap, Value.assertMap, GoMap.index,
      GoMap.lookup, lookupField])).1
  rw [hid, upsertElements, upsertElements, upsertElements, ha, hb, hu] at h
  exact h

/-! ## C2: identity-based deletion -/

/-- C2: with pairwise distinct identities in source, a single change whose
identity is the string held by source[p] and whose `value` field is an explicit
null makes mergeArrays return source without the element at position p, the
other elements unchanged and in order. -/
theorem identity_based_deletion (source : List Value) (c : Fields) (p : Nat) (s : String)
    (hp : p < source.length)
    (hdist : source.Pairwise
      (fun a b => identityOf (chooseIdString (some c)) a ≠ identityOf (chooseIdString (some c)) b))
    (hid : lookupField c (chooseIdString (some c)) = some (Value.str s))
    (hsp : identityOf (chooseIdString (some c)) (source.get ⟨p, hp⟩) = Value.str s)
    (hval : lookupField c "value" = some Value.null) :
    mergeArrays source [Value.map c] = some (Value.seq (source.eraseIdx p)) ∧
    (source.eraseIdx p).length = source.length - 1 := by
  constructor
  · rw [mergeArrays]
    simp only [Value.assertMap]
    rw [mergeArraysRange_delete (chooseIdString (some c)) source (Value.map c) (some c) [] p
      (source.get ⟨p, hp⟩) rfl ?_ (isNil_false_of_identity _ _ _ hsp) (by simpa [GoMap.lookup] using hval)]
    · simp [mergeArraysRange]
    · have : Sprint (GoMap.index (some c) (chooseIdString (some c))) = s := by
        simp [GoMap.index, GoMap.lookup, hid, Sprint]
      rw [this]
      exact findInArray_at _ s source p hp hsp hdist
  · rw [List.length_eraseIdx]
    simp [hp]

theorem identity_based_deletion_witness :
    mergeArrays
        [Value.map [("name", Value.str "a"), ("v", Value.int 1)],
         Value.map [("name", Value.str "b"), ("v", Value.int 2)]]
        [Value.map [("name", Value.str "a"), ("value", Value.null)]]
      = some (Value.seq [Value.map [("name", Value.str "b"), ("v", Value.int 2)]]) ∧
    ([Value.map [("name", Value.str "a"), ("v", Value.int 1)],
      Value.map [("name", Value.str "b"), ("v", Value.int 2)]].eraseIdx 0).length = 2 - 1 :=
  identity_based_deletion
    [Value.map [("name", Value.str "a"), ("v", Value.int 1)],
     Value.map [("name", Value.str "b"), ("v", Value.int 2)]]
    [("name", Value.str "a"), ("value", Value.null)] 0 "a" (by decide)
    (by simp [identityOf, chooseIdString, Value.asMap, Value.assertMap, GoMap.index,
      GoMap.lookup, lookupField])
    (by simp [chooseIdString, GoMap.lookup, lookupField])
    (by simp [identityOf, chooseIdString, Value.asMap, Value.assertMap, GoMap.index,
      GoMap.lookup, lookupField])
    (by simp [lookupField])

/-! ## C3: the deletion sentinel -/

/-- C3, as stated, fails: when the existing value is absent (or Null) the
sentinel string "null" is adopted verbatim instead of yielding Null, and
mergeResources then binds the key to the string "null". -/
theorem deletion_sentinel_absent_counterexample :
    mergeChanges Value.null (Value.str "null") = some (Value.str "null") ∧
    mergeChanges Value.null (Value.str "null") ≠ some Value.null ∧
    mergeResources (some []) [("k", Value.str "null")] = some (some [("k", Value.str "null")]) := by
  refine ⟨mergeChanges_nil _, ?_, ?_⟩
  · rw [mergeChanges_nil]; simp
  · simp [mergeResources, mergeChanges_nil, GoMap.index, GoMap.lookup, lookupField, GoMap.assign,
      assignField]

/-- C3, amended: for every existing value that is present and not Null,
merging the string "null" yields Null, and mergeResources with the single
change k: "null" leaves k bound to Null in the result, all other entries of
source as they were; when the existing value is absent or Null the result is
the string "null" itself. -/
theorem deletion_sentinel (existing : Value) (source : Fields) (k : String)
    (hex : existing ≠ Value.null) (hk : GoMap.index (some source) k ≠ Value.null) :
    mergeChanges existing (Value.str "null") = some Value.null ∧
    mergeResources (some source) [(k, Value.str "null")]
      = some (some (assignField source k Value.null)) ∧
    lookupField (assignField source k Value.null) k = some Value.null ∧
    mergeChanges Value.null (Value.str "null") = some (Value.str "null") := by
  refine ⟨?_, ?_, lookupField_assignField_self _ _ _, mergeChanges_nil _⟩
  · rw [mergeChanges_str _ _ ((isNil_eq_false_iff _).2 hex)]; simp
  · rw [mergeResources, mergeChanges_str _ _ ((isNil_eq_false_iff _).2 hk)]
    simp [GoMap.assign, mergeResources]

theorem deletion_sentinel_witness :
    mergeChanges (Value.seq [Value.int 1]) (Value.str "null") = some Value.null ∧
    mergeResources (some [("k", Value.int 7), ("j", Value.int 8)]) [("k", Value.str "null")]
      = some (some (assignField [("k", Value.int 7), ("j", Value.int 8)] "k" Value.null)) ∧
    lookupField (assignField [("k", Value.int 7), ("j", Value.int 8)] "k" Value.null) "k"
      = some Value.null ∧
    mergeChanges Value.null (Value.str "null") = some (Value.str "null") :=
  deletion_sentinel (Value.seq [Value.int 1]) [("k", Value.int 7), ("j", Value.int 8)] "k"
    (by simp) (by simp [GoMap.index, GoMap.lookup, lookupField])

/-! ## C4: the frame of mergeResources -/

/-- C4: whenever mergeResources returns, every key that source holds and
changes does not mention is present in the result with the value source had. -/
theorem mergeResources_frame (source changes : Fields) (result : GoMap) (k : String) (v : Value)
    (hret : mergeResources (some source) changes = some result)
    (hk : lookupField source k = some v) (hnot : lookupField changes k = none) :
    GoMap.lookup result k = some v := by
  induction changes generalizing source with
  | nil =>
    simp [mergeResources] at hret
    subst hret
    simpa [GoMap.lookup] using hk
  | cons e rest ih =>
    obtain ⟨key, w⟩ := e
    have hne : key ≠ k := by
      intro h
      simp [lookupField, h] at hnot
    have hrest : lookupField rest k = none := by
      simpa [lookupField, hne] using hnot
    rw [mergeResources] at hret
    cases hm : mergeChanges (GoMap.index (some source) key) w with
    | none => simp [hm] at hret
    | some merged =>
      simp only [hm, GoMap.assign] at hret
      exact ih _ hret (by rw [lookupField_assignField_ne _ _ _ _ hne]; exact hk) hrest

theorem mergeResources_frame_witness :
    mergeResources (some [("a", Value.int 1), ("b", Value.str "x")]) [("b", Value.str "y")]
      = some (some [("a", Value.int 1), ("b", Value.str "y")]) ∧
    GoMap.lookup (some [("a", Value.int 1), ("b", Value.str "y")]) "a" = some (Value.int 1) :=
  have hret : mergeResources (some [("a", Value.int 1), ("b", Value.str "x")])
      [("b", Value.str "y")] = some (some [("a", Value.int 1), ("b", Value.str "y")]) := by
    simp [mergeResources, mergeChanges, GoMap.index, GoMap.lookup, lookupField, GoMap.assign,
      assignField, Value.isNil]
  ⟨hret, mergeResources_frame [("a", Value.int 1), ("b", Value.str "x")] [("b", Value.str "y")]
    (some [("a", Value.int 1), ("b", Value.str "y")]) "a" (Value.int 1) hret
    (by simp [lookupField]) (by simp [lookupField])⟩

/-! ## C5: scalar override -/

/-- C5: an incoming scalar (a string other than "null", a number or a boolean)
replaces any existing value, whatever its shape, absent included. -/
theorem scalar_override (existing incoming : Value)
    (h : (∃ s, incoming = Value.str s ∧ s ≠ "null") ∨ (∃ n, incoming = Value.num n) ∨
      (∃ b, incoming = Value.bool b)) :
    mergeChanges existing incoming = some incoming := by
  rcases h with ⟨s, rfl, hs⟩ | ⟨n, rfl⟩ | ⟨b, rfl⟩
  · rw [mergeChanges]; simp [hs]
  · rw [mergeChanges]; simp
  · rw [mergeChanges]; simp

theorem scalar_override_witness :
    mergeChanges (Value.map [("a", Value.seq [Value.int 1])]) (Value.str "x")
      = some (Value.str "x") :=
  scalar_override _ _ (Or.inl ⟨"x", rfl, by decide⟩)

/-! ## C6: full replace on empty sequences -/

/-- C6: an incoming sequence replaces the existing value unchanged when the
incoming sequence is empty or the existing value is an empty sequence, absent,
or not a sequence; mergeArrays is entered exactly when both are non-empty
sequences, and then its result is the result. -/
theorem full_replace_on_empty (existing : Value) (changesList : List Value) :
    ((changesList = [] ∨ ∀ l, existing = Value.seq l → l = []) →
      mergeChanges existing (Value.seq changesList) = some (Value.seq changesList)) ∧
    (∀ sourceList, existing = Value.seq sourceList → sourceList ≠ [] → changesList ≠ [] →
      mergeChanges existing (Value.seq changesList) = mergeArrays sourceList changesList) := by
  constructor
  · intro h
    cases existing with
    | seq l =>
      rw [mergeChanges_seq (Value.seq l) _ rfl]
      rcases h with h | h
      · simp [h]
      · simp [Value.asList, h l rfl]
    | null => exact mergeChanges_nil _
    | str s => rw [mergeChanges_seq (Value.str s) _ rfl]; simp [Value.asList]
    | num n => rw [mergeChanges_seq (Value.num n) _ rfl]; simp [Value.asList]
    | bool b => rw [mergeChanges_seq (Value.bool b) _ rfl]; simp [Value.asList]
    | nilmap => rw [mergeChanges_seq Value.nilmap _ rfl]; simp [Value.asList]
    | map m => rw [mergeChanges_seq (Value.map m) _ rfl]; simp [Value.asList]
  · intro sl hsl hs hc
    subst hsl
    rw [mergeChanges_seq (Value.seq sl) _ rfl]
    simp [Value.asList, hs, hc]

theorem full_replace_on_empty_witness :
    mergeChanges (Value.seq [Value.int 1, Value.int 2]) (Value.seq [])
      = some (Value.seq []) ∧
    mergeChanges (Value.seq []) (Value.seq [Value.float 3]) = some (Value.seq [Value.float 3]) ∧
    mergeChanges (Value.str "x") (Value.seq [Value.float 3]) = some (Value.seq [Value.float 3]) ∧
    mergeChanges (Value.seq [Value.int 1]) (Value.seq [Value.float 3])
      = mergeArrays [Value.int 1] [Value.float 3] :=
  ⟨(full_replace_on_empty _ _).1 (Or.inl rfl),
   (full_replace_on_empty _ _).1 (Or.inr (by intro l h; cases h; rfl)),
   (full_replace_on_empty _ _).1 (Or.inr (by intro l h; cases h)),
   (full_replace_on_empty _ _).2 _ rfl (by simp) (by simp)⟩

/-! ## C7: the merge can abort -/

/-- C7 fails on the code: merging a non-empty mapping onto a scalar writes to
a nil map (pod.go 139-142), and a later changes element that is not a mapping
fails the unchecked type assertion (pod.go 161); both abort mergeResources. -/
theorem mergeResources_aborts :
    mergeResources (some [("a", Value.int 1)]) [("a", Value.map [("b", Value.float 2)])] = none ∧
    mergeResources (some [("l", Value.seq [Value.map [("name", Value.str "a")]])])
      [("l", Value.seq [Value.map [("name", Value.str "b")], Value.float 5])] = none := by
  constructor
  · simp [mergeResources, mergeChanges, mergeChangesRange, GoMap.index, GoMap.lookup, lookupField,
      GoMap.assign, Value.isNil, Value.asMap, Value.assertMap]
  · simp [mergeResources, mergeChanges, mergeArrays, mergeArraysRange, findInArray,
      findInArrayFrom, chooseIdString, Sprint, GoMap.index, GoMap.lookup, lookupField,
      GoMap.assign, Value.isNil, Value.asMap, Value.asList, Value.assertMap, Value.eqString]

/-! ## C8: a mapping merged onto a non-mapping -/

/-- C8 fails on the code: a non-empty incoming mapping merged onto a scalar or
a sequence aborts (the assignment into the nil map of pod.go 139-142), while
the same mapping merged into an empty mapping yields that mapping; an empty
incoming mapping yields a nil map. -/
theorem mapping_over_non_mapping_aborts :
    mergeChanges (Value.str "x") (Value.map [("a", Value.float 1)]) = none ∧
    mergeChanges (Value.seq [Value.int 0]) (Value.map [("a", Value.float 1)]) = none ∧
    mergeChanges (Value.map []) (Value.map [("a", Value.float 1)])
      = some (Value.map [("a", Value.float 1)]) ∧
    mergeChanges (Value.str "x") (Value.map []) = some Value.nilmap := by
  refine ⟨?_, ?_, ?_, ?_⟩
  · rw [mergeChanges_map (Value.str "x") _ rfl]
    simp [Value.asMap, Value.assertMap, mergeChangesRange_nil_map]
  · rw [mergeChanges_map (Value.seq [Value.int 0]) _ rfl]
    simp [Value.asMap, Value.assertMap, mergeChangesRange_nil_map]
  · simp [mergeChanges, mergeChangesRange, GoMap.index, GoMap.lookup, lookupField,
      GoMap.assign, assignField, Value.isNil, Value.asMap, Value.assertMap, GoMap.toValue]
  · simp [mergeChanges, mergeChangesRange, Value.isNil, Value.asMap, Value.assertMap,
      GoMap.toValue]

/-- Every non-empty mapping merged onto a present non-mapping value aborts. -/
theorem mapping_over_non_mapping_general (existing : Value) (k : String) (v : Value)
    (rest : Fields) (hpresent : existing ≠ Value.null)
    (hnot : ∀ m, existing ≠ Value.map m) :
    mergeChanges existing (Value.map ((k, v) :: rest)) = none := by
  rw [mergeChanges_map _ _ ((isNil_eq_false_iff _).2 hpresent)]
  have : Value.asMap existing = none := by
    cases existing <;> simp [Value.asMap, Value.assertMap] at hnot ⊢
  rw [this, mergeChangesRange_nil_map]
  rfl

/-! ## C9: identities of mismatched type -/

/-- C9, as stated, fails: two changes with the same string identity are not
both appended, the second is merged into the first, which by then is part of
source. -/
theorem type_mismatched_identity_counterexample :
    mergeArrays [Value.map [("name", Value.int 1)]]
        [Value.map [("name", Value.str "a"), ("v", Value.float 1)],
         Value.map [("name", Value.str "a"), ("v", Value.float 2)]]
      = some (Value.seq [Value.map [("name", Value.int 1)],
          Value.map [("name", Value.str "a"), ("v", Value.float 2)]]) ∧
    mergeArrays [Value.map [("name", Value.int 1)]]
        [Value.map [("name", Value.str "a"), ("v", Value.float 1)],
         Value.map [("name", Value.str "a"), ("v", Value.float 2)]]
      ≠ some (Value.seq ([Value.map [("name", Value.int 1)]] ++
          [Value.map [("name", Value.str "a"), ("v", Value.float 1)],
           Value.map [("name", Value.str "a"), ("v", Value.float 2)]])) := by
  have hid : chooseIdString (some [("name", Value.str "a"), ("v", Value.float 1)]) = "name" := by
    simp [chooseIdString, GoMap.lookup, lookupField]
  have hfind1 : findInArray "name"
      (Sprint (GoMap.index (some [("name", Value.str "a"), ("v", Value.float 1)]) "name"))
      [Value.map [("name", Value.int 1)]] = (-1, Value.null) := by
    simp [findInArray, findInArrayFrom, Sprint, GoMap.lookup, GoMap.index, lookupField,
      Value.eqString, Value.assertMap, Value.asMap]
  have hfind2 : findInArray "name"
      (Sprint (GoMap.index (some [("name", Value.str "a"), ("v", Value.float 2)]) "name"))
      ([Value.map [("name", Value.int 1)]] ++ [Value.map [("name", Value.str "a"), ("v", Value.float 1)]])
      = (((1 : Nat) : Int), Value.map [("name", Value.str "a"), ("v", Value.float 1)]) := by
    simp [findInArray, findInArrayFrom, Sprint, GoMap.lookup, GoMap.index, lookupField,
      Value.eqString, Value.assertMap, Value.asMap]
  have hmerge : mergeChanges (Value.map [("name", Value.str "a"), ("v", Value.float 1)])
      (Value.map [("name", Value.str "a"), ("v", Value.float 2)])
      = some (Value.map [("name", Value.str "a"), ("v", Value.float 2)]) := by
    simp [mergeChanges, mergeChangesRange, GoMap.lookup, GoMap.index, GoMap.assign,
      GoMap.toValue, lookupField, assignField, Value.isNil, Value.assertMap, Value.asMap]
  have h : mergeArrays [Value.map [("name", Value.int 1)]]
        [Value.map [("name", Value.str "a"), ("v", Value.float 1)],
         Value.map [("name", Value.str "a"), ("v", Value.float 2)]]
      = some (Value.seq [Value.map [("name", Value.int 1)],
          Value.map [("name", Value.str "a"), ("v", Value.float 2)]]) := by
    rw [mergeArrays]
    simp only [Value.assertMap]
    rw [hid, mergeArraysRange_append "name" [Value.map [("name", Value.int 1)]]
        (Value.map [("name", Value.str "a"), ("v", Value.float 1)])
        (some [("name", Value.str "a"), ("v", Value.float 1)]) _ rfl hfind1,
      mergeArraysRange_merge "name" _ (Value.map [("name", Value.str "a"), ("v", Value.float 2)])
        (some [("name", Value.str "a"), ("v", Value.float 2)]) [] 1
        (Value.map [("name", Value.str "a"), ("v", Value.float 1)]) rfl hfind2 rfl
        (by simp [GoMap.lookup, lookupField]), hmerge]
    simp [mergeArraysRange]
  refine ⟨h, ?_⟩
  rw [h]
  simp

/-- C9, amended: when the identity fields of source are all numbers and those
of changes are all strings that are pairwise distinct, no change is merged
into any element and mergeArrays returns source followed by every changes
element, in order. -/
theorem type_mismatched_identity (source : List Value) (first : Fields) (rest : List Value)
    (hsrc : ∀ e ∈ source, ∃ m n, e = Value.map m ∧
      lookupField m (chooseIdString (some first)) = some (Value.num n))
    (hchg : ∀ c ∈ Value.map first :: rest, ∃ m s, c = Value.map m ∧
      lookupField m (chooseIdString (some first)) = some (Value.str s))
    (hdist : (Value.map first :: rest).Pairwise (fun a b =>
      identityOf (chooseIdString (some first)) a ≠ identityOf (chooseIdString (some first)) b)) :
    mergeArrays source (Value.map first :: rest)
      = some (Value.seq (source ++ Value.map first :: rest)) ∧
    (source ++ Value.map first :: rest).length = source.length + (Value.map first :: rest).length := by
  refine ⟨?_, List.length_append _ _⟩
  rw [mergeArrays]
  simp only [Value.assertMap]
  rw [mergeArraysRange_all_new _ _ source hchg hdist]
  · rfl
  · intro c hc e he
    obtain ⟨m, n, rfl, hm⟩ := hsrc e he
    obtain ⟨m2, s, rfl, hm2⟩ := hchg c hc
    rw [identityOf_map _ _ _ hm, identityOf_map _ _ _ hm2]
    simp

theorem type_mismatched_identity_witness :
    mergeArrays [Value.map [("name", Value.int 1)], Value.map [("name", Value.int 2)]]
        [Value.map [("name", Value.str "1")], Value.map [("name", Value.str "2")]]
      = some (Value.seq ([Value.map [("name", Value.int 1)], Value.map [("name", Value.int 2)]]
          ++ [Value.map [("name", Value.str "1")], Value.map [("name", Value.str "2")]])) ∧
    ([Value.map [("name", Value.int 1)], Value.map [("name", Value.int 2)]]
        ++ [Value.map [("name", Value.str "1")], Value.map [("name", Value.str "2")]]).length
      = [Value.map [("name", Value.int 1)], Value.map [("name", Value.int 2)]].length
        + [Value.map [("name", Value.str "1")], Value.map [("name", Value.str "2")]].length :=
  type_mismatched_identity
    [Value.map [("name", Value.int 1)], Value.map [("name", Value.int 2)]]
    [("name", Value.str "1")] [Value.map [("name", Value.str "2")]]
    (by simp [chooseIdString, GoMap.lookup, lookupField])
    (by simp [chooseIdString, GoMap.lookup, lookupField])
    (by simp [identityOf, chooseIdString, Value.asMap, Value.assertMap, GoMap.index,
      GoMap.lookup, lookupField])

/-! ## Printing a number -/

/-- What `fmt.Sprint` gives for some numbers: a float64 is printed from its
digits, in the `%e` form from an exponent of 6 on and below an exponent of -4;
an int64 is printed in decimal. -/
theorem SprintNumber_examples :
    SprintNumber (Number.float64 ⟨['1'], 7, false⟩) = "1e+06" ∧
    SprintNumber (Number.float64 ⟨['1', '2', '3', '4', '5', '6'], 6, false⟩) = "123456" ∧
    SprintNumber (Number.float64 ⟨['1', '2', '5'], 7, false⟩) = "1.25e+06" ∧
    SprintNumber (Number.float64 ⟨['1', '5'], 1, true⟩) = "-1.5" ∧
    SprintNumber (Number.float64 ⟨['1'], -3, false⟩) = "0.0001" ∧
    SprintNumber (Number.float64 ⟨['1'], -4, false⟩) = "1e-05" ∧
    SprintNumber (Number.float64 ⟨['7'], 301, false⟩) = "7e+300" ∧
    SprintNumber (Number.float64 ⟨[], 0, false⟩) = "0" ∧
    SprintNumber (Number.int64 1000000) = "1000000" ∧
    SprintNumber (Number.int64 (-12)) = "-12" ∧
    Sprint (Value.float 1000000) = "1e+06" ∧
    Sprint (Value.float 120) = "120" ∧
    Sprint (Value.int 1000000) = "1000000" ∧
    Sprint (Value.seq [Value.float 2500000, Value.map [("b", Value.int 3), ("a", Value.float 0)]])
      = "[2.5e+06 map[a:0 b:3]]" := by
  refine ⟨rfl, rfl, rfl, rfl, rfl, rfl, rfl, rfl, rfl, rfl, ?_, ?_, ?_, ?_⟩
  · rw [Sprint]; rfl
  · rw [Sprint]; rfl
  · rw [Sprint]; rfl
  · have hlt : ¬ ("b" < "a") := by simp +decide
    simp only [Sprint, SprintElems, SprintFields, sortEntries, insertEntry, hlt, if_false]
    rfl

/-! ## C10: the identity field -/

theorem chooseIdString_eq_spec (first : Fields) :
    chooseIdString (some first) = specIdentityField first := by
  unfold chooseIdString specIdentityField
  simp only [GoMap.lookup]

theorem mergeArraysRange_eq_foldlM (f : String) (changes : List Value) :
    ∀ source : List Value,
      mergeArraysRange f source changes = List.foldlM (reconcileRound f) source changes := by
  induction changes with
  | nil => intro source; rw [mergeArraysRange]; rfl
  | cons c rest ih =>
    intro source
    rw [mergeArraysRange, List.foldlM_cons]
    cases hc : Value.assertMap c with
    | none => simp [reconcileRound, hc]
    | some change =>
      simp only [reconcileRound, hc, matchOf]
      cases hel : Value.isNil (findInArray f (Sprint (GoMap.index change f)) source).2 with
      | true => simp [ih]
      | false =>
        simp only [Bool.not_false, if_true, Bool.false_eq_true, if_false]
        cases hv : GoMap.lookup change "value" with
        | none =>
          cases hm : mergeChanges (findInArray f (Sprint (GoMap.index change f)) source).2 c <;>
            simp [ih]
        | some v =>
          cases v with
          | null => simp [Value.isNil, ih, List.eraseIdx_eq_take_drop_succ]
          | _ =>
            cases hm : mergeChanges (findInArray f (Sprint (GoMap.index change f)) source).2 c <;>
              simp [Value.isNil, ih]

theorem matchOf_assignField (f : String) (current : List Value) (change : Fields) (k : String)
    (v : Value) (hk : k ≠ f) :
    matchOf f current (some (assignField change k v)) = matchOf f current (some change) := by
  have hidx : GoMap.index (some (assignField change k v)) f = GoMap.index (some change) f := by
    simp only [GoMap.index, GoMap.lookup]
    rw [lookupField_assignField_ne change f k v hk]
  rw [matchOf, matchOf, hidx]

/-- C10: mergeArrays reads the identity field off the first element of changes
alone, key before id before name, and every element of changes is reconciled
under that one field: the run is the rounds of reconciliation under it, one per
change and each against the sequence the earlier rounds left.  So when the
earlier changes leave the sequence `current`, a last change that carries some
other field `k` (an id or key that is not the chosen field) is reconciled
against `current` under the chosen field and is matched to the element it is
matched to without `k`. -/
theorem identity_field_selection (first : Fields) :
    chooseIdString (some first) = specIdentityField first ∧
    (∀ source rest : List Value,
      mergeArrays source (Value.map first :: rest)
        = (List.foldlM (reconcileRound (specIdentityField first)) source
            (Value.map first :: rest)).map Value.seq) ∧
    (∀ (source earlier current : List Value) (change : Fields) (k : String) (v : Value),
      k ≠ specIdentityField first →
      mergeArrays source (Value.map first :: earlier) = some (Value.seq current) →
      mergeArrays source (Value.map first :: (earlier ++ [Value.map (assignField change k v)]))
          = (reconcileRound (specIdentityField first) current
              (Value.map (assignField change k v))).map Value.seq ∧
        matchOf (specIdentityField first) current (some (assignField change k v))
          = matchOf (specIdentityField first) current (some change)) := by
  have hrun : ∀ source rest : List Value,
      mergeArrays source (Value.map first :: rest)
        = (List.foldlM (reconcileRound (specIdentityField first)) source
            (Value.map first :: rest)).map Value.seq := by
    intro source rest
    rw [mergeArrays]
    simp only [Value.assertMap, chooseIdString_eq_spec, mergeArraysRange_eq_foldlM]
  refine ⟨chooseIdString_eq_spec first, hrun, ?_⟩
  intro source earlier current change k v hk hearlier
  refine ⟨?_, matchOf_assignField _ current change k v hk⟩
  rw [hrun] at hearlier
  rw [hrun, ← List.cons_append, List.foldlM_append]
  cases hfold : List.foldlM (reconcileRound (specIdentityField first)) source
      (Value.map first :: earlier) with
  | none => rw [hfold] at hearlier; simp at hearlier
  | some cur =>
    rw [hfold] at hearlier
    simp only [Option.map_some', Option.some.injEq, Value.seq.injEq] at hearlier
    subst hearlier
    simp [List.foldlM_cons, List.foldlM_nil]

/-- A first element with id, key and name selects key.  With a first change
that has a name only, a later change whose id names the first element of source
and whose name names the second is matched by name: it is merged into the
second element, where matching by id would have found the first. -/
theorem identity_field_selection_witness :
    chooseIdString (some [("id", Value.str "i"), ("key", Value.str "k"), ("name", Value.str "n")])
      = "key" ∧
    mergeArrays
        [Value.map [("id", Value.str "x"), ("name", Value.str "q")],
         Value.map [("name", Value.str "a"), ("v", Value.int 1)]]
        [Value.map [("name", Value.str "n1")],
         Value.map [("name", Value.str "a"), ("v", Value.float 9), ("id", Value.str "x")]]
      = some (Value.seq
        [Value.map [("id", Value.str "x"), ("name", Value.str "q")],
         Value.map [("name", Value.str "a"), ("v", Value.float 9), ("id", Value.str "x")],
         Value.map [("name", Value.str "n1")]]) ∧
    matchOf "name"
        [Value.map [("id", Value.str "x"), ("name", Value.str "q")],
         Value.map [("name", Value.str "a"), ("v", Value.int 1)],
         Value.map [("name", Value.str "n1")]]
        (some [("name", Value.str "a"), ("v", Value.float 9), ("id", Value.str "x")])
      = (1, Value.map [("name", Value.str "a"), ("v", Value.int 1)]) ∧
    matchOf "id"
        [Value.map [("id", Value.str "x"), ("name", Value.str "q")],
         Value.map [("name", Value.str "a"), ("v", Value.int 1)],
         Value.map [("name", Value.str "n1")]]
        (some [("name", Value.str "a"), ("v", Value.float 9), ("id", Value.str "x")])
      = (0, Value.map [("id", Value.str "x"), ("name", Value.str "q")]) := by
  have hspec : specIdentityField [("name", Value.str "n1")] = "name" := by
    simp [specIdentityField, lookupField]
  have hassign : assignField [("name", Value.str "a"), ("v", Value.float 9)] "id" (Value.str "x")
      = [("name", Value.str "a"), ("v", Value.float 9), ("id", Value.str "x")] := by
    simp [assignField]
  have hfirst : reconcileRound "name"
      [Value.map [("id", Value.str "x"), ("name", Value.str "q")],
       Value.map [("name", Value.str "a"), ("v", Value.int 1)]]
      (Value.map [("name", Value.str "n1")])
      = some [Value.map [("id", Value.str "x"), ("name", Value.str "q")],
          Value.map [("name", Value.str "a"), ("v", Value.int 1)],
          Value.map [("name", Value.str "n1")]] := by
    simp [reconcileRound, matchOf, findInArray, findInArrayFrom, Sprint, Value.assertMap,
      Value.asMap, Value.eqString, Value.isNil, GoMap.index, GoMap.lookup, lookupField]
  have hmatch : matchOf "name"
      [Value.map [("id", Value.str "x"), ("name", Value.str "q")],
       Value.map [("name", Value.str "a"), ("v", Value.int 1)],
       Value.map [("name", Value.str "n1")]]
      (some [("name", Value.str "a"), ("v", Value.float 9)])
      = (1, Value.map [("name", Value.str "a"), ("v", Value.int 1)]) := by
    simp [matchOf, findInArray, findInArrayFrom, Sprint, Value.assertMap,
      Value.asMap, Value.eqString, GoMap.index, GoMap.lookup, lookupField]
  have hmerge : mergeChanges (Value.map [("name", Value.str "a"), ("v", Value.int 1)])
      (Value.map [("name", Value.str "a"), ("v", Value.float 9), ("id", Value.str "x")])
      = some (Value.map [("name", Value.str "a"), ("v", Value.float 9), ("id", Value.str "x")]) := by
    simp [mergeChanges, mergeChangesRange, Value.isNil, Value.asMap, Value.assertMap, GoMap.index,
      GoMap.lookup, GoMap.assign, GoMap.toValue, lookupField, assignField]
  have hearlier : mergeArrays
      [Value.map [("id", Value.str "x"), ("name", Value.str "q")],
       Value.map [("name", Value.str "a"), ("v", Value.int 1)]]
      [Value.map [("name", Value.str "n1")]]
      = some (Value.seq [Value.map [("id", Value.str "x"), ("name", Value.str "q")],
          Value.map [("name", Value.str "a"), ("v", Value.int 1)],
          Value.map [("name", Value.str "n1")]]) := by
    rw [(identity_field_selection [("name", Value.str "n1")]).2.1, hspec, List.foldlM_cons, hfirst]
    rfl
  have h := (identity_field_selection [("name", Value.str "n1")]).2.2
    [Value.map [("id", Value.str "x"), ("name", Value.str "q")],
     Value.map [("name", Value.str "a"), ("v", Value.int 1)]]
    []
    [Value.map [("id", Value.str "x"), ("name", Value.str "q")],
     Value.map [("name", Value.str "a"), ("v", Value.int 1)],
     Value.map [("name", Value.str "n1")]]
    [("name", Value.str "a"), ("v", Value.float 9)] "id" (Value.str "x")
    (by rw [hspec]; decide) hearlier
  rw [hspec, hassign, hmatch] at h
  refine ⟨((identity_field_selection
      [("id", Value.str "i"), ("key", Value.str "k"), ("name", Value.str "n")]).1).trans
      (by simp [specIdentityField, lookupField]), ?_, h.2, ?_⟩
  · rw [List.nil_append] at h
    rw [h.1, reconcileRound]
    simp only [Value.assertMap, h.2, Value.isNil, GoMap.lookup, lookupField, hmerge]
    simp
  · simp [matchOf, findInArray, findInArrayFrom, Sprint, Value.assertMap,
      Value.asMap, Value.eqString, GoMap.index, GoMap.lookup, lookupField]

/-! ## Induction over documents -/

mutual
theorem Value.deepInduction (P : Value → Prop) (hnull : P Value.null) (hstr : ∀ s, P (Value.str s))
    (hnum : ∀ n, P (Value.num n)) (hbool : ∀ b, P (Value.bool b)) (hnilmap : P Value.nilmap)
    (hmap : ∀ m : Fields, (∀ e ∈ m, P e.2) → P (Value.map m))
    (hseq : ∀ l : List Value, (∀ e ∈ l, P e) → P (Value.seq l)) : ∀ v : Value, P v
  | .null => hnull
  | .str s => hstr s
  | .num n => hnum n
  | .bool b => hbool b
  | .nilmap => hnilmap
  | .map m => hmap m (Value.induct_fields P hnull hstr hnum hbool hnilmap hmap hseq m)
  | .seq l => hseq l (Value.induct_elems P hnull hstr hnum hbool hnilmap hmap hseq l)
theorem Value.induct_fields (P : Value → Prop) (hnull : P Value.null) (hstr : ∀ s, P (Value.str s))
    (hnum : ∀ n, P (Value.num n)) (hbool : ∀ b, P (Value.bool b)) (hnilmap : P Value.nilmap)
    (hmap : ∀ m : Fields, (∀ e ∈ m, P e.2) → P (Value.map m))
    (hseq : ∀ l : List Value, (∀ e ∈ l, P e) → P (Value.seq l)) :
    ∀ m : List (String × Value), ∀ e ∈ m, P e.2
  | [], _, h => absurd h (List.not_mem_nil _)
  | (_, v) :: rest, e, h =>
    (List.mem_cons.1 h).elim
      (fun heq => heq ▸ Value.deepInduction P hnull hstr hnum hbool hnilmap hmap hseq v)
      (fun h => Value.induct_fields P hnull hstr hnum hbool hnilmap hmap hseq rest e h)
theorem Value.induct_elems (P : Value → Prop) (hnull : P Value.null) (hstr : ∀ s, P (Value.str s))
    (hnum : ∀ n, P (Value.num n)) (hbool : ∀ b, P (Value.bool b)) (hnilmap : P Value.nilmap)
    (hmap : ∀ m : Fields, (∀ e ∈ m, P e.2) → P (Value.map m))
    (hseq : ∀ l : List Value, (∀ e ∈ l, P e) → P (Value.seq l)) :
    ∀ l : List Value, ∀ e ∈ l, P e
  | [], _, h => absurd h (List.not_mem_nil _)
  | v :: rest, e, h =>
    (List.mem_cons.1 h).elim
      (fun heq => heq ▸ Value.deepInduction P hnull hstr hnum hbool hnilmap hmap hseq v)
      (fun h => Value.induct_elems P hnull hstr hnum hbool hnilmap hmap hseq rest e h)
end

/-! ## Further lemmas on map entries -/

theorem mergeResources_eq_range (changes : Fields) :
    ∀ source : GoMap, mergeResources source changes = mergeChangesRange source changes := by
  induction changes with
  | nil => intro source; rw [mergeResources, mergeChangesRange]
  | cons e rest ih =>
    intro source
    obtain ⟨k, v⟩ := e
    rw [mergeResources, mergeChangesRange]
    cases mergeChanges (GoMap.index source k) v with
    | none => rfl
    | some merged =>
      cases hs : GoMap.assign source k merged with
      | none => simp only [hs]
      | some s2 => simp only [hs]; exact ih s2

theorem mem_keys_assignField (m : Fields) (key : String) (v : Value) (k : String) :
    k ∈ (assignField m key v).map Prod.fst ↔ k = key ∨ k ∈ m.map Prod.fst := by
  induction m with
  | nil => simp [assignField]
  | cons e rest ih =>
    obtain ⟨k0, w⟩ := e
    by_cases h : k0 = key
    · subst h
      simp [assignField]
    · simp only [assignField, h, if_false, List.map_cons, List.mem_cons, ih]
      tauto

theorem assignField_of_not_mem (m : Fields) (key : String) (v : Value)
    (h : key ∉ m.map Prod.fst) : assignField m key v = m ++ [(key, v)] := by
  induction m with
  | nil => rfl
  | cons e rest ih =>
    obtain ⟨k0, w⟩ := e
    simp only [List.map_cons, List.mem_cons, not_or] at h
    simp [assignField, Ne.symm h.1, ih h.2]

theorem mergeResources_onto_fresh (c : Fields) :
    ∀ pre : Fields, ((pre ++ c).map Prod.fst).Nodup →
      mergeResources (some pre) c = some (some (pre ++ c)) := by
  induction c with
  | nil => intro pre _; simp [mergeResources]
  | cons e rest ih =>
    intro pre hnd
    obtain ⟨k, v⟩ := e
    have hk : k ∉ pre.map Prod.fst := by
      intro hmem
      rw [List.map_append, List.nodup_append] at hnd
      exact hnd.2.2 hmem (by simp)
    have hidx : GoMap.index (some pre) k = Value.null := by
      simp [GoMap.index, GoMap.lookup, lookupField_eq_none_of_not_mem pre k hk]
    rw [mergeResources, hidx, mergeChanges_nil]
    simp only [GoMap.assign]
    rw [assignField_of_not_mem pre k v hk, ih (pre ++ [(k, v)]) (by simpa using hnd)]
    simp

theorem plainFields_mem (m : Fields) (h : plainFields m = true) :
    ∀ e ∈ m, Value.plain e.2 = true := by
  induction m with
  | nil => intro e he; cases he
  | cons x rest ih =>
    obtain ⟨k, v⟩ := x
    simp only [plainFields, Bool.and_eq_true] at h
    intro e he
    rcases List.mem_cons.1 he with rfl | he
    · exact h.1
    · exact ih h.2 e he

theorem uniqueKeysFields_mem (m : Fields) (h : uniqueKeysFields m = true) :
    ∀ e ∈ m, Value.uniqueKeys e.2 = true := by
  induction m with
  | nil => intro e he; cases he
  | cons x rest ih =>
    obtain ⟨k, v⟩ := x
    simp only [uniqueKeysFields, Bool.and_eq_true] at h
    intro e he
    rcases List.mem_cons.1 he with rfl | he
    · exact h.1
    · exact ih h.2 e he

theorem lookupField_of_mem (m : Fields) (hnd : (m.map Prod.fst).Nodup) :
    ∀ e ∈ m, lookupField m e.1 = some e.2 := by
  induction m with
  | nil => intro e he; cases he
  | cons x rest ih =>
    obtain ⟨k, v⟩ := x
    simp only [List.map_cons, List.nodup_cons] at hnd
    intro e he
    rcases List.mem_cons.1 he with rfl | he
    · simp [lookupField]
    · have hne : k ≠ e.1 := by
        intro h
        exact hnd.1 (h ▸ List.mem_map_of_mem Prod.fst he)
      simp [lookupField, hne, ih hnd.2 e he]

theorem assignField_same (m : Fields) (k : String) (x : Value)
    (h : lookupField m k = some x) : assignField m k x = m := by
  induction m with
  | nil => simp [lookupField] at h
  | cons e rest ih =>
    obtain ⟨k0, w⟩ := e
    by_cases hk : k0 = k
    · subst hk
      simp [lookupField] at h
      simp [assignField, h]
    · simp [lookupField, hk] at h
      simp [assignField, hk, ih h]

theorem mergeChangesRange_stable (sub : Fields) (M : Fields)
    (h : ∀ e ∈ sub, ∃ x, lookupField M e.1 = some x ∧ mergeChanges x e.2 = some x) :
    mergeChangesRange (some M) sub = some (some M) := by
  induction sub with
  | nil => rw [mergeChangesRange]
  | cons e rest ih =>
    obtain ⟨k, v⟩ := e
    obtain ⟨x, hx, hm⟩ := h (k, v) (List.mem_cons_self _ _)
    have hidx : GoMap.index (some M) k = x := by
      simp [GoMap.index, GoMap.lookup, hx]
    rw [mergeChangesRange, hidx, hm]
    simp only [GoMap.assign, assignField_same M k x hx]
    exact ih (fun e he => h e (List.mem_cons_of_mem _ he))

theorem mergeChanges_idempotent_aux : ∀ c : Value,
    Value.plain c = true → Value.uniqueKeys c = true →
    mergeChanges c c = some c ∧
    ∀ s r, mergeChanges s c = some r → mergeChanges r c = some r := by
  intro c
  induction c using Value.deepInduction with
  | hnull => intro h; simp [Value.plain] at h
  | hnilmap => intro h; simp [Value.plain] at h
  | hseq l _ => intro h; simp [Value.plain] at h
  | hstr t =>
    intro h _
    have ht : t ≠ "null" := by simpa [Value.plain] using h
    have hov : ∀ s, mergeChanges s (Value.str t) = some (Value.str t) :=
      fun s => scalar_override s _ (Or.inl ⟨t, rfl, ht⟩)
    refine ⟨hov _, fun s r hr => ?_⟩
    rw [hov s] at hr
    cases hr
    exact hov _
  | hnum n =>
    intro _ _
    have hov : ∀ s, mergeChanges s (Value.num n) = some (Value.num n) :=
      fun s => scalar_override s _ (Or.inr (Or.inl ⟨n, rfl⟩))
    refine ⟨hov _, fun s r hr => ?_⟩
    rw [hov s] at hr
    cases hr
    exact hov _
  | hbool b =>
    intro _ _
    have hov : ∀ s, mergeChanges s (Value.bool b) = some (Value.bool b) :=
      fun s => scalar_override s _ (Or.inr (Or.inr ⟨b, rfl⟩))
    refine ⟨hov _, fun s r hr => ?_⟩
    rw [hov s] at hr
    cases hr
    exact hov _
  | hmap m ih =>
    intro hp hu
    simp only [Value.plain] at hp
    simp only [Value.uniqueKeys, Bool.and_eq_true, decide_eq_true_eq] at hu
    obtain ⟨hnd, hu⟩ := hu
    have hpe := plainFields_mem m hp
    have hue := uniqueKeysFields_mem m hu
    have hself : mergeChanges (Value.map m) (Value.map m) = some (Value.map m) := by
      rw [mergeChanges_map (Value.map m) m rfl]
      simp only [Value.asMap, Value.assertMap, Option.getD_some]
      rw [mergeChangesRange_stable m m (fun e he =>
        ⟨e.2, lookupField_of_mem m hnd e he, (ih e he (hpe e he) (hue e he)).1⟩)]
      rfl
    refine ⟨hself, fun s r hr => ?_⟩
    by_cases hnil : Value.isNil s = true
    · have : s = Value.null := by
        cases s <;> simp [Value.isNil] at hnil ⊢
      subst this
      rw [mergeChanges_nil] at hr
      cases hr
      exact hself
    · have hnil2 : Value.isNil s = false := by simpa using hnil
      rw [mergeChanges_map s m hnil2] at hr
      simp only [Option.map_eq_some'] at hr
      obtain ⟨res, hres, hr⟩ := hr
      subst hr
      cases hs : Value.asMap s with
      | none =>
        rw [hs] at hres
        cases m with
        | nil =>
          rw [mergeChangesRange] at hres
          cases hres
          rw [mergeChanges_map (GoMap.toValue none) [] rfl]
          simp [GoMap.toValue, Value.asMap, Value.assertMap, mergeChangesRange]
        | cons e rest =>
          obtain ⟨k, v⟩ := e
          rw [mergeChangesRange_nil_map] at hres
          cases hres
      | some sm =>
        rw [hs] at hres
        obtain ⟨em2, rfl, _⟩ := mergeChangesRange_field "" m sm res hnd hres
        simp only [GoMap.toValue]
        rw [mergeChanges_map (Value.map em2) m rfl]
        simp only [Value.asMap, Value.assertMap, Option.getD_some]
        rw [mergeChangesRange_stable m em2 (fun e he => by
          obtain ⟨em3, h3, hcase⟩ := mergeChangesRange_field e.1 m sm (some em2) hnd hres
          cases h3
          rcases hcase with ⟨h1, _⟩ | ⟨v, x, h1, h2, h3⟩
          · rw [lookupField_of_mem m hnd e he] at h1; cases h1
          · rw [lookupField_of_mem m hnd e he] at h1
            cases h1
            exact ⟨x, h3, (ih e he (hpe e he) (hue e he)).2 _ x h2⟩)]
        rfl

/-! ## C11: the identity lookup -/

/-- C11: findInArray returns the smallest index whose element is a mapping
holding the string v in field f, together with that element, and returns
(-1, nil) when there is none; an element whose field f is a number or a
boolean never matches, whatever it prints as. -/
theorem findInArray_contract (f v : String) (arr : List Value) :
    (∀ (i : Nat) (hi : i < arr.length),
      (∃ m, arr.get ⟨i, hi⟩ = Value.map m ∧ lookupField m f = some (Value.str v)) →
      (∀ (j : Nat) (hj : j < arr.length), j < i →
        ¬ ∃ m, arr.get ⟨j, hj⟩ = Value.map m ∧ lookupField m f = some (Value.str v)) →
      findInArray f v arr = ((i : Int), arr.get ⟨i, hi⟩)) ∧
    ((∀ (i : Nat) (hi : i < arr.length),
        ¬ ∃ m, arr.get ⟨i, hi⟩ = Value.map m ∧ lookupField m f = some (Value.str v)) →
      findInArray f v arr = (-1, Value.null)) ∧
    ((∀ e ∈ arr, ∃ m, e = Value.map m ∧
        ((∃ n, lookupField m f = some (Value.num n)) ∨
         (∃ b, lookupField m f = some (Value.bool b)))) →
      findInArray f v arr = (-1, Value.null)) := by
  have hno : ∀ e : Value, (¬ ∃ m, e = Value.map m ∧ lookupField m f = some (Value.str v)) →
      Value.eqString (identityOf f e) v = false := by
    intro e he
    apply eqString_eq_false_of_ne
    intro hid
    exact he (map_of_identity f e v hid)
  refine ⟨?_, ?_, ?_⟩
  · intro i hi hmatch hmin
    obtain ⟨m, hm, hl⟩ := hmatch
    have hsplit : arr = arr.take i ++ arr.get ⟨i, hi⟩ :: arr.drop (i + 1) := by
      rw [List.get_eq_getElem, ← List.drop_eq_getElem_cons hi, List.take_append_drop]
    have hpre : ∀ x ∈ arr.take i, Value.eqString (identityOf f x) v = false := by
      intro x hx
      obtain ⟨j, hj, rfl⟩ := List.getElem_of_mem hx
      rw [List.length_take] at hj
      have hji : j < i := lt_of_lt_of_le hj (Nat.min_le_left _ _)
      rw [List.getElem_take]
      exact hno _ (by simpa [List.get_eq_getElem] using hmin j (lt_trans hji hi) hji)
    have hid : identityOf f (arr.get ⟨i, hi⟩) = Value.str v := by
      rw [hm]; exact identityOf_map f m _ hl
    have := findInArrayFrom_found f v (arr.take i) (arr.get ⟨i, hi⟩) (arr.drop (i + 1)) 0
      hpre ((eqString_eq_true_iff _ _).2 hid)
    rw [← hsplit] at this
    rw [findInArray, this]
    simp [List.length_take, Nat.min_eq_left (Nat.le_of_lt hi)]
  · intro h
    rw [findInArray]
    apply findInArrayFrom_none
    intro e he
    obtain ⟨i, hi, rfl⟩ := List.getElem_of_mem he
    exact hno _ (by simpa [List.get_eq_getElem] using h i hi)
  · intro h
    rw [findInArray]
    apply findInArrayFrom_none
    intro e he
    obtain ⟨m, rfl, hm⟩ := h e he
    apply eqString_eq_false_of_ne
    rcases hm with ⟨n, hn⟩ | ⟨b, hb⟩
    · rw [identityOf_map f m _ hn]; simp
    · rw [identityOf_map f m _ hb]; simp

theorem findInArray_contract_witness :
    findInArray "name" "b"
        [Value.int 7, Value.map [("name", Value.str "a")], Value.map [("name", Value.str "b")],
         Value.map [("name", Value.str "b"), ("v", Value.int 1)]]
      = (((2 : Nat) : Int), Value.map [("name", Value.str "b")]) ∧
    Sprint (Value.int 1) = "1" ∧
    findInArray "name" "1" [Value.map [("name", Value.int 1)]] = (-1, Value.null) :=
  ⟨(findInArray_contract "name" "b"
      [Value.int 7, Value.map [("name", Value.str "a")], Value.map [("name", Value.str "b")],
       Value.map [("name", Value.str "b"), ("v", Value.int 1)]]).1 2 (by decide)
      ⟨_, rfl, by simp [lookupField]⟩
      (by
        intro j hj hlt
        have : j = 0 ∨ j = 1 := by omega
        rcases this with rfl | rfl <;> simp [lookupField]),
   by rw [Sprint]; rfl,
   (findInArray_contract "name" "1" [Value.map [("name", Value.int 1)]]).2.2
      (by simp [lookupField])⟩

/-! ## C12: full adoption -/

/-- C12: when the existing value is absent (nil), mergeChanges returns the
incoming value verbatim, whatever its kind. -/
theorem full_adoption (incoming : Value) :
    mergeChanges Value.null incoming = some incoming := by
  cases incoming <;> simp [mergeChanges, Value.isNil]

/-! ## C13: the mapping case and mergeResources -/

/-- C13: on an existing mapping the mapping case of mergeChanges is
mergeResources on that mapping, and on an absent value it returns what
mergeResources returns on the empty mapping; whenever mergeResources returns,
the result holds mergeChanges(m'[k], c[k]) at every key k of c and the value
of m' at every other key. -/
theorem mapping_case_is_mergeResources (c : Fields) :
    (∀ m : Fields, mergeChanges (Value.map m) (Value.map c)
        = (mergeResources (some m) c).map GoMap.toValue) ∧
    ((c.map Prod.fst).Nodup →
      mergeChanges Value.null (Value.map c) = (mergeResources (some []) c).map GoMap.toValue) ∧
    (∀ (m' : Fields) (result : GoMap), (c.map Prod.fst).Nodup →
      mergeResources (some m') c = some result →
      ∃ r, result = some r ∧ ∀ k,
        (∀ v, lookupField c k = some v →
          ∃ x, mergeChanges (GoMap.index (some m') k) v = some x ∧ lookupField r k = some x) ∧
        (lookupField c k = none → lookupField r k = lookupField m' k)) := by
  refine ⟨?_, ?_, ?_⟩
  · intro m
    rw [mergeChanges_map (Value.map m) c rfl, mergeResources_eq_range]
    rfl
  · intro hnd
    rw [mergeChanges_nil, mergeResources_onto_fresh c [] (by simpa using hnd)]
    rfl
  · intro m' result hnd hret
    rw [mergeResources_eq_range] at hret
    obtain ⟨r, hr, _⟩ := mergeChangesRange_field "" c m' result hnd hret
    refine ⟨r, hr, fun k => ?_⟩
    obtain ⟨r2, hr2, hcase⟩ := mergeChangesRange_field k c m' result hnd hret
    have : r2 = r := by
      rw [hr] at hr2
      exact (Option.some.inj hr2).symm
    subst this
    constructor
    · intro v hv
      rcases hcase with ⟨h1, _⟩ | ⟨v2, x, h1, h2, h3⟩
      · rw [hv] at h1; cases h1
      · rw [hv] at h1
        cases h1
        exact ⟨x, h2, h3⟩
    · intro hnone
      rcases hcase with ⟨_, h2⟩ | ⟨v2, x, h1, _, _⟩
      · exact h2
      · rw [hnone] at h1; cases h1

theorem mapping_case_is_mergeResources_witness :
    mergeChanges Value.null (Value.map [("a", Value.float 1), ("b", Value.map [("x", Value.str "y")])])
      = (mergeResources (some [])
          [("a", Value.float 1), ("b", Value.map [("x", Value.str "y")])]).map GoMap.toValue ∧
    mergeChanges (Value.map [("b", Value.int 2)])
        (Value.map [("a", Value.float 1), ("b", Value.map [("x", Value.str "y")])])
      = (mergeResources (some [("b", Value.int 2)])
          [("a", Value.float 1), ("b", Value.map [("x", Value.str "y")])]).map GoMap.toValue :=
  ⟨(mapping_case_is_mergeResources
      [("a", Value.float 1), ("b", Value.map [("x", Value.str "y")])]).2.1 (by decide),
   (mapping_case_is_mergeResources
      [("a", Value.float 1), ("b", Value.map [("x", Value.str "y")])]).1 [("b", Value.int 2)]⟩

/-! ## C14: sequences with an element that is not a mapping -/

/-- C14 fails on the code: mergeArrays tests only the first element of the
incoming sequence (pod.go 152) and asserts every later one to be a mapping
without a check (pod.go 161), so a non-mapping after a mapping aborts the
merge instead of falling back to the incoming sequence. -/
theorem non_mapping_element_aborts :
    mergeChanges (Value.seq [Value.map [("name", Value.str "a")]])
      (Value.seq [Value.map [("name", Value.str "b")], Value.float 5]) = none := by
  have hid : chooseIdString (some [("name", Value.str "b")]) = "name" := by
    simp [chooseIdString, GoMap.lookup, lookupField]
  have hfind : findInArray "name" (Sprint (GoMap.index (some [("name", Value.str "b")]) "name"))
      [Value.map [("name", Value.str "a")]] = (-1, Value.null) := by
    simp [findInArray, findInArrayFrom, Sprint, GoMap.lookup, GoMap.index, lookupField,
      Value.eqString, Value.assertMap, Value.asMap]
  rw [mergeChanges_seq (Value.seq [Value.map [("name", Value.str "a")]]) _ rfl]
  simp only [Value.asList, List.length_cons, List.length_nil, Nat.add_one_ne_zero, or_self,
    if_false]
  rw [mergeArrays]
  simp only [Value.assertMap]
  rw [hid, mergeArraysRange_append "name" [Value.map [("name", Value.str "a")]]
    (Value.map [("name", Value.str "b")]) (some [("name", Value.str "b")]) [Value.float 5] rfl
    hfind, mergeArraysRange]
  simp [Value.assertMap]

/-- When the first element of the incoming sequence is not a mapping, the merge
does fall back to the incoming sequence. -/
theorem non_mapping_first_element_replaces (existing first : Value) (rest : List Value)
    (hfirst : Value.assertMap first = none) :
    mergeChanges existing (Value.seq (first :: rest)) = some (Value.seq (first :: rest)) := by
  by_cases hnil : Value.isNil existing = true
  · rw [mergeChanges]; simp [hnil]
  · have hnil2 : Value.isNil existing = false := by simpa using hnil
    rw [mergeChanges_seq existing _ hnil2]
    split
    · rfl
    · rw [mergeArrays]
      simp [hfirst]

/-! ## Entries listed by key -/

theorem insertByKey_comm {α : Type} (a b : String × α) (h : a.1 < b.1) (L : List (String × α)) :
    insertByKey a (insertByKey b L) = insertByKey b (insertByKey a L) := by
  have hba : ¬ b.1 < a.1 := lt_asymm h
  induction L with
  | nil => simp [insertByKey, h, hba]
  | cons x rest ih =>
    by_cases hxa : x.1 < a.1
    · have hxb : x.1 < b.1 := lt_trans hxa h
      simp [insertByKey, hxa, hxb, ih]
    · by_cases hxb : x.1 < b.1
      · simp [insertByKey, hxa, hxb, h, hba]
      · simp [insertByKey, hxa, hxb, h, hba]

theorem insertByKey_comm_of_ne {α : Type} (a b : String × α) (h : a.1 ≠ b.1)
    (L : List (String × α)) :
    insertByKey a (insertByKey b L) = insertByKey b (insertByKey a L) := by
  rcases lt_or_gt_of_ne h with h | h
  · exact insertByKey_comm a b h L
  · exact (insertByKey_comm b a h L).symm

theorem mem_insertByKey {α : Type} (e x : String × α) (L : List (String × α)) :
    x ∈ insertByKey e L ↔ x = e ∨ x ∈ L := by
  induction L with
  | nil => simp [insertByKey]
  | cons y rest ih =>
    by_cases hy : y.1 < e.1
    · simp only [insertByKey, hy, if_true, List.mem_cons, ih]
      tauto
    · simp [insertByKey, hy]

theorem mem_sortByKey {α : Type} (x : String × α) (L : List (String × α)) :
    x ∈ sortByKey L ↔ x ∈ L := by
  induction L with
  | nil => simp [sortByKey]
  | cons y rest ih => simp [sortByKey, mem_insertByKey, ih]

theorem insertByKey_map {α β : Type} (g : α → β) (e : String × α) (L : List (String × α)) :
    insertByKey (e.1, g e.2) (L.map (fun x => (x.1, g x.2)))
      = (insertByKey e L).map (fun x => (x.1, g x.2)) := by
  induction L with
  | nil => simp [insertByKey]
  | cons y rest ih =>
    by_cases hy : y.1 < e.1
    · simp [insertByKey, hy, ih]
    · simp [insertByKey, hy]

theorem sortByKey_map {α β : Type} (g : α → β) (L : List (String × α)) :
    sortByKey (L.map (fun x => (x.1, g x.2))) = (sortByKey L).map (fun x => (x.1, g x.2)) := by
  induction L with
  | nil => simp [sortByKey]
  | cons y rest ih =>
    simp only [List.map_cons, sortByKey, ih]
    exact insertByKey_map g y (sortByKey rest)

theorem sortByKey_insertByKey {α : Type} (e : String × α) (L : List (String × α)) :
    sortByKey (insertByKey e L) = insertByKey e (sortByKey L) := by
  induction L with
  | nil => simp [insertByKey, sortByKey]
  | cons y rest ih =>
    by_cases hy : y.1 < e.1
    · simp only [insertByKey, hy, if_true, sortByKey, ih]
      exact insertByKey_comm y e hy (sortByKey rest)
    · simp [insertByKey, hy, sortByKey]

theorem sortByKey_idem {α : Type} (L : List (String × α)) :
    sortByKey (sortByKey L) = sortByKey L := by
  induction L with
  | nil => simp [sortByKey]
  | cons y rest ih => rw [sortByKey, sortByKey_insertByKey, ih]

theorem sortByKey_perm {α : Type} (L1 L2 : List (String × α)) (hp : L1.Perm L2)
    (hnd : (L1.map Prod.fst).Nodup) : sortByKey L1 = sortByKey L2 := by
  induction hp with
  | nil => rfl
  | cons x _ ih =>
    simp only [List.map_cons, List.nodup_cons] at hnd
    simp [sortByKey, ih hnd.2]
  | swap x y l =>
    simp only [List.map_cons, List.nodup_cons, List.mem_cons, not_or] at hnd
    simp only [sortByKey]
    exact insertByKey_comm_of_ne y x hnd.1.1 (sortByKey l)
  | trans h1 _ ih1 ih2 =>
    exact (ih1 hnd).trans (ih2 ((h1.map Prod.fst).nodup_iff.1 hnd))

theorem lookupField_insertByKey (e : String × Value) (L : Fields) (k : String) :
    lookupField (insertByKey e L) k = if e.1 = k then some e.2 else lookupField L k := by
  induction L with
  | nil => simp [insertByKey, lookupField]
  | cons y rest ih =>
    obtain ⟨ky, vy⟩ := y
    by_cases hy : ky < e.1
    · have hne : ky ≠ e.1 := ne_of_lt hy
      simp only [insertByKey, hy, if_true, lookupField, ih]
      by_cases h1 : ky = k
      · have : e.1 ≠ k := fun h => hne (h1.trans h.symm)
        simp [h1, this]
      · simp [h1]
    · simp only [insertByKey, hy, if_false]
      obtain ⟨ke, ve⟩ := e
      simp [lookupField]

theorem lookupField_sortByKey (L : Fields) (k : String) :
    lookupField (sortByKey L) k = lookupField L k := by
  induction L with
  | nil => rfl
  | cons y rest ih =>
    obtain ⟨ky, vy⟩ := y
    simp [sortByKey, lookupField_insertByKey, ih, lookupField]

theorem insertEntry_comm (a b : String × String) (h : a.1 < b.1) (L : List (String × String)) :
    insertEntry a (insertEntry b L) = insertEntry b (insertEntry a L) := by
  have hba : ¬ b.1 < a.1 := lt_asymm h
  induction L with
  | nil => simp [insertEntry, h, hba]
  | cons x rest ih =>
    by_cases hbx : b.1 < x.1
    · have hax : a.1 < x.1 := lt_trans h hbx
      simp [insertEntry, hbx, hax, h, hba]
    · by_cases hax : a.1 < x.1
      · simp [insertEntry, hbx, hax, h, hba]
      · simp [insertEntry, hbx, hax, ih]

theorem sortEntries_insertByKey (e : String × String) (L : List (String × String)) :
    sortEntries (insertByKey e L) = insertEntry e (sortEntries L) := by
  induction L with
  | nil => simp [insertByKey, sortEntries]
  | cons y rest ih =>
    by_cases hy : y.1 < e.1
    · simp only [insertByKey, hy, if_true, sortEntries, ih]
      exact insertEntry_comm y e hy (sortEntries rest)
    · simp [insertByKey, hy, sortEntries]

theorem sortEntries_sortByKey (L : List (String × String)) :
    sortEntries (sortByKey L) = sortEntries L := by
  induction L with
  | nil => simp [sortByKey]
  | cons y rest ih => rw [sortByKey, sortEntries_insertByKey, ih, sortEntries]

/-! ## Canonical enumeration and the operations of the merge -/

theorem canonFields_eq_map (m : Fields) :
    canonFields m = m.map (fun e => (e.1, Value.canon e.2)) := by
  induction m with
  | nil => rfl
  | cons e rest ih =>
    obtain ⟨k, v⟩ := e
    simp [canonFields, ih]

theorem canonElems_eq_map (l : List Value) : canonElems l = l.map Value.canon := by
  induction l with
  | nil => rfl
  | cons e rest ih => simp [canonElems, ih]

theorem SprintFields_eq_map (m : Fields) :
    SprintFields m = m.map (fun e => (e.1, Sprint e.2)) := by
  induction m with
  | nil => simp [SprintFields]
  | cons e rest ih =>
    obtain ⟨k, v⟩ := e
    simp [SprintFields, ih]

theorem SprintElems_eq_map (l : List Value) : SprintElems l = l.map Sprint := by
  induction l with
  | nil => simp [SprintElems]
  | cons e rest ih => simp [SprintElems, ih]

theorem lookupField_canonFields (m : Fields) (k : String) :
    lookupField (canonFields m) k = (lookupField m k).map Value.canon := by
  induction m with
  | nil => rfl
  | cons e rest ih =>
    obtain ⟨k0, v⟩ := e
    by_cases h : k0 = k
    · simp [canonFields, lookupField, h]
    · simp [canonFields, lookupField, h, ih]

theorem lookup_canon (g : GoMap) (k : String) :
    GoMap.lookup (GoMap.canon g) k = (GoMap.lookup g k).map Value.canon := by
  cases g with
  | none => rfl
  | some m => simp [GoMap.canon, GoMap.lookup, lookupField_sortByKey, lookupField_canonFields]

theorem index_canon (g : GoMap) (k : String) :
    GoMap.index (GoMap.canon g) k = Value.canon (GoMap.index g k) := by
  rw [GoMap.index, lookup_canon, GoMap.index]
  cases GoMap.lookup g k <;> simp [Value.canon]

theorem canon_toValue (g : GoMap) :
    Value.canon (GoMap.toValue g) = GoMap.toValue (GoMap.canon g) := by
  cases g <;> simp [GoMap.toValue, GoMap.canon, Value.canon]

theorem assertMap_canon (v : Value) :
    Value.assertMap (Value.canon v) = (Value.assertMap v).map GoMap.canon := by
  cases v <;> simp [Value.assertMap, Value.canon, GoMap.canon]

theorem asMap_canon (v : Value) : Value.asMap (Value.canon v) = GoMap.canon (Value.asMap v) := by
  cases v <;> simp [Value.asMap, Value.assertMap, Value.canon, GoMap.canon]

theorem asList_canon (v : Value) :
    Value.asList (Value.canon v) = canonElems (Value.asList v) := by
  cases v <;> simp [Value.asList, Value.canon, canonElems]

theorem isNil_canon (v : Value) : Value.isNil (Value.canon v) = Value.isNil v := by
  cases v <;> simp [Value.isNil, Value.canon]

theorem eqString_canon (v : Value) (s : String) :
    Value.eqString (Value.canon v) s = Value.eqString v s := by
  cases v <;> simp [Value.eqString, Value.canon]

theorem identityOf_canon (f : String) (e : Value) :
    identityOf f (Value.canon e) = Value.canon (identityOf f e) := by
  rw [identityOf, asMap_canon, index_canon, identityOf]

theorem chooseIdString_canon (g : GoMap) : chooseIdString (GoMap.canon g) = chooseIdString g := by
  simp [chooseIdString, lookup_canon]

theorem Sprint_canon (v : Value) : Sprint (Value.canon v) = Sprint v := by
  induction v using Value.deepInduction with
  | hnull => rfl
  | hstr s => rfl
  | hnum n => rfl
  | hbool b => rfl
  | hnilmap => rfl
  | hmap m ih =>
    have h1 : SprintFields (canonFields m) = SprintFields m := by
      rw [SprintFields_eq_map, SprintFields_eq_map, canonFields_eq_map, List.map_map]
      apply List.map_congr_left
      intro e he
      simp [ih e he]
    have h2 : SprintFields (sortByKey (canonFields m)) = sortByKey (SprintFields (canonFields m)) := by
      rw [SprintFields_eq_map, SprintFields_eq_map]
      exact (sortByKey_map Sprint (canonFields m)).symm
    rw [Value.canon, Sprint, Sprint, h2, sortEntries_sortByKey, h1]
  | hseq l ih =>
    have h1 : SprintElems (canonElems l) = SprintElems l := by
      rw [SprintElems_eq_map, SprintElems_eq_map, canonElems_eq_map, List.map_map]
      apply List.map_congr_left
      intro e he
      simp [ih e he]
    rw [Value.canon, Sprint, Sprint, h1]

theorem Sprint_congr (x y : Value) (h : Value.canon x = Value.canon y) : Sprint x = Sprint y := by
  rw [← Sprint_canon x, ← Sprint_canon y, h]

theorem assignField_insertByKey_same (k : String) (w v : Value) (M : Fields) :
    assignField (insertByKey (k, w) M) k v = insertByKey (k, v) M := by
  induction M with
  | nil => simp [insertByKey, assignField]
  | cons y rest ih =>
    obtain ⟨ky, vy⟩ := y
    by_cases hy : ky < k
    · have hne : ky ≠ k := ne_of_lt hy
      simp [insertByKey, hy, assignField, hne, ih]
    · simp [insertByKey, hy, assignField]

theorem assignField_insertByKey_ne (k0 k : String) (w v : Value) (M : Fields) (hne : k0 ≠ k)
    (hk : (lookupField M k).isSome = true) :
    assignField (insertByKey (k0, w) M) k v = insertByKey (k0, w) (assignField M k v) := by
  induction M with
  | nil => simp [lookupField] at hk
  | cons y rest ih =>
    obtain ⟨ky, vy⟩ := y
    by_cases hy : ky < k0
    · by_cases hkk : ky = k
      · subst hkk
        simp [insertByKey, hy, assignField]
      · have hk2 : (lookupField rest k).isSome = true := by
          simpa [lookupField, hkk] using hk
        simp [insertByKey, hy, assignField, hkk, ih hk2]
    · by_cases hkk : ky = k
      · subst hkk
        simp [insertByKey, hy, assignField, hne]
      · simp [insertByKey, hy, assignField, hne, hkk]

theorem sortByKey_assignField (L : Fields) (k : String) (v : Value) :
    sortByKey (assignField L k v)
      = if (lookupField (sortByKey L) k).isSome then assignField (sortByKey L) k v
        else insertByKey (k, v) (sortByKey L) := by
  induction L with
  | nil => simp [assignField, sortByKey, lookupField, insertByKey]
  | cons y rest ih =>
    obtain ⟨k0, w⟩ := y
    by_cases h : k0 = k
    · subst h
      simp [assignField, sortByKey, lookupField_insertByKey, assignField_insertByKey_same]
    · simp only [assignField, h, if_false, sortByKey, ih, lookupField_insertByKey]
      by_cases hs : (lookupField (sortByKey rest) k).isSome = true
      · simp only [hs, if_true]
        exact (assignField_insertByKey_ne k0 k w v (sortByKey rest) h hs).symm
      · simp only [hs, if_false]
        exact insertByKey_comm_of_ne (k0, w) (k, v) h (sortByKey rest)

theorem sortByKey_assignField_congr (L L2 : Fields) (k : String) (v : Value)
    (h : sortByKey L = sortByKey L2) :
    sortByKey (assignField L k v) = sortByKey (assignField L2 k v) := by
  rw [sortByKey_assignField, sortByKey_assignField, h]

theorem sortByKey_assignField_comm (m : Fields) (k1 k2 : String) (a b : Value) (h : k1 ≠ k2) :
    sortByKey (assignField (assignField m k1 a) k2 b)
      = sortByKey (assignField (assignField m k2 b) k1 a) := by
  induction m with
  | nil =>
    simp only [assignField, h, Ne.symm h, if_false, sortByKey]
    exact insertByKey_comm_of_ne (k1, a) (k2, b) h []
  | cons y rest ih =>
    obtain ⟨k0, w⟩ := y
    by_cases h1 : k0 = k1
    · subst h1
      simp [assignField, h]
    · by_cases h2 : k0 = k2
      · subst h2
        simp [assignField, h1]
      · simp [assignField, h1, h2, sortByKey, ih]

theorem canonFields_assignField (m : Fields) (k : String) (v : Value) :
    canonFields (assignField m k v) = assignField (canonFields m) k (Value.canon v) := by
  induction m with
  | nil => simp [assignField, canonFields]
  | cons y rest ih =>
    obtain ⟨k0, w⟩ := y
    by_cases h : k0 = k
    · simp [assignField, canonFields, h]
    · simp [assignField, canonFields, h, ih]

theorem assign_canon_congr (s s2 : GoMap) (k : String) (v v2 : Value)
    (hs : GoMap.canon s = GoMap.canon s2) (hv : Value.canon v = Value.canon v2) :
    (GoMap.assign s k v).map GoMap.canon = (GoMap.assign s2 k v2).map GoMap.canon := by
  cases s with
  | none =>
    cases s2 with
    | none => rfl
    | some m2 => simp [GoMap.canon] at hs
  | some m =>
    cases s2 with
    | none => simp [GoMap.canon] at hs
    | some m2 =>
      simp only [GoMap.canon, Option.map_some', Option.some.injEq] at hs
      simp only [GoMap.assign, GoMap.canon, Option.map_some', Option.some.injEq,
        canonFields_assignField, hv]
      exact sortByKey_assignField_congr _ _ k _ hs

theorem assign_canon_comm (s : GoMap) (k1 k2 : String) (a b : Value) (h : k1 ≠ k2) :
    ((GoMap.assign s k1 a).bind (fun t => GoMap.assign t k2 b)).map GoMap.canon
      = ((GoMap.assign s k2 b).bind (fun t => GoMap.assign t k1 a)).map GoMap.canon := by
  cases s with
  | none => rfl
  | some m =>
    simp only [GoMap.assign, Option.some_bind, Option.map_some', GoMap.canon,
      Option.some.injEq, canonFields_assignField]
    exact sortByKey_assignField_comm _ k1 k2 _ _ h

/-! ## The map loop under a change of enumeration -/

theorem mergeChangesRange_cons (s : GoMap) (e : String × Value) (rest : Fields) :
    mergeChangesRange s (e :: rest) = (mergeStep s e).bind (fun t => mergeChangesRange t rest) := by
  obtain ⟨k, v⟩ := e
  rw [mergeChangesRange, mergeStep]
  cases mergeChanges (GoMap.index s k) v with
  | none => rfl
  | some merged =>
    cases hs : GoMap.assign s k merged with
    | none => simp [hs]
    | some t => simp [hs]

theorem bind_canon_congr (a b : Option GoMap) (F G : GoMap → Option GoMap)
    (hab : a.map GoMap.canon = b.map GoMap.canon)
    (hFG : ∀ t t2, GoMap.canon t = GoMap.canon t2 →
      (F t).map GoMap.canon = (G t2).map GoMap.canon) :
    (a.bind F).map GoMap.canon = (b.bind G).map GoMap.canon := by
  cases a with
  | none =>
    cases b with
    | none => rfl
    | some y => simp at hab
  | some x =>
    cases b with
    | none => simp at hab
    | some y =>
      simp only [Option.map_some', Option.some.injEq] at hab
      simpa using hFG x y hab

theorem mergeStep_congr (s s2 : GoMap) (e e2 : String × Value)
    (hs : GoMap.canon s = GoMap.canon s2) (hk : e.1 = e2.1) (hv : MergeCongr e.2 e2.2) :
    (mergeStep s e).map GoMap.canon = (mergeStep s2 e2).map GoMap.canon := by
  have hidx : Value.canon (GoMap.index s e.1) = Value.canon (GoMap.index s2 e2.1) := by
    rw [← index_canon, ← index_canon, hs, hk]
  have hm := hv _ _ hidx
  rw [mergeStep, mergeStep]
  cases h1 : mergeChanges (GoMap.index s e.1) e.2 with
  | none =>
    cases h2 : mergeChanges (GoMap.index s2 e2.1) e2.2 with
    | none => rfl
    | some r2 => rw [h1, h2] at hm; simp at hm
  | some r =>
    cases h2 : mergeChanges (GoMap.index s2 e2.1) e2.2 with
    | none => rw [h1, h2] at hm; simp at hm
    | some r2 =>
      rw [h1, h2] at hm
      simp only [Option.map_some', Option.some.injEq] at hm
      simp only [Option.some_bind]
      rw [← hk]
      exact assign_canon_congr s s2 e.1 r r2 hs hm

theorem index_assign_ne (s t : GoMap) (k1 k2 : String) (r : Value) (h : k1 ≠ k2)
    (ht : GoMap.assign s k1 r = some t) : GoMap.index t k2 = GoMap.index s k2 := by
  cases s with
  | none => simp [GoMap.assign] at ht
  | some m =>
    simp only [GoMap.assign, Option.some.injEq] at ht
    subst ht
    simp [GoMap.index, GoMap.lookup, lookupField_assignField_ne m k2 k1 r h]

theorem mergeStep_comm (s : GoMap) (e x : String × Value) (h : e.1 ≠ x.1) :
    ((mergeStep s e).bind (fun t => mergeStep t x)).map GoMap.canon
      = ((mergeStep s x).bind (fun t => mergeStep t e)).map GoMap.canon := by
  cases s with
  | none =>
    have h1 : ∀ y : String × Value, mergeStep none y = none := by
      intro y
      rw [mergeStep]
      cases mergeChanges (GoMap.index none y.1) y.2 <;> rfl
    rw [h1, h1]
    rfl
  | some m =>
    have hstep : ∀ (y : String × Value) (r : Value),
        mergeChanges (GoMap.index (some m) y.1) y.2 = some r →
        mergeStep (some m) y = some (some (assignField m y.1 r)) := by
      intro y r hr
      rw [mergeStep, hr]
      rfl
    have hstep2 : ∀ (y z : String × Value) (r : Value), y.1 ≠ z.1 →
        mergeStep (some (assignField m y.1 r)) z
          = (mergeChanges (GoMap.index (some m) z.1) z.2).bind
              (fun q => some (some (assignField (assignField m y.1 r) z.1 q))) := by
      intro y z r hyz
      rw [mergeStep, index_assign_ne (some m) _ y.1 z.1 r hyz rfl]
      rfl
    cases ha : mergeChanges (GoMap.index (some m) e.1) e.2 with
    | none =>
      have h1 : mergeStep (some m) e = none := by rw [mergeStep, ha]; rfl
      rw [h1]
      cases hb : mergeChanges (GoMap.index (some m) x.1) x.2 with
      | none =>
        have h2 : mergeStep (some m) x = none := by rw [mergeStep, hb]; rfl
        rw [h2]
        rfl
      | some b =>
        rw [hstep x b hb]
        simp only [Option.some_bind]
        rw [hstep2 x e b (Ne.symm h), ha]
        rfl
    | some a =>
      rw [hstep e a ha]
      simp only [Option.some_bind]
      rw [hstep2 e x a h]
      cases hb : mergeChanges (GoMap.index (some m) x.1) x.2 with
      | none =>
        have h2 : mergeStep (some m) x = none := by rw [mergeStep, hb]; rfl
        rw [h2]
        rfl
      | some b =>
        rw [hstep x b hb]
        simp only [Option.some_bind]
        rw [hstep2 x e b (Ne.symm h), ha]
        simp only [Option.some_bind, Option.map_some', GoMap.canon, Option.some.injEq,
          canonFields_assignField]
        exact sortByKey_assignField_comm _ e.1 x.1 _ _ h

theorem mergeChangesRange_congr (c c2 : Fields)
    (h : List.Forall₂ (fun e e2 => e.1 = e2.1 ∧ MergeCongr e.2 e2.2) c c2) :
    ∀ s s2, GoMap.canon s = GoMap.canon s2 →
      (mergeChangesRange s c).map GoMap.canon = (mergeChangesRange s2 c2).map GoMap.canon := by
  induction h with
  | nil =>
    intro s s2 hs
    rw [mergeChangesRange, mergeChangesRange]
    simp [hs]
  | cons he _ ih =>
    intro s s2 hs
    rw [mergeChangesRange_cons, mergeChangesRange_cons]
    exact bind_canon_congr _ _ _ _ (mergeStep_congr s s2 _ _ hs he.1 he.2) ih

theorem mergeChangesRange_congr_same (c : Fields) (h : ∀ e ∈ c, MergeCongr e.2 e.2) :
    ∀ s s2, GoMap.canon s = GoMap.canon s2 →
      (mergeChangesRange s c).map GoMap.canon = (mergeChangesRange s2 c).map GoMap.canon := by
  apply mergeChangesRange_congr
  induction c with
  | nil => exact List.Forall₂.nil
  | cons e rest ih =>
    exact List.Forall₂.cons ⟨rfl, h e (List.mem_cons_self _ _)⟩
      (ih (fun x hx => h x (List.mem_cons_of_mem _ hx)))

theorem mergeChangesRange_insertByKey (e : String × Value) (he : MergeCongr e.2 e.2)
    (M : Fields) (hM : ∀ x ∈ M, MergeCongr x.2 x.2) :
    ∀ s s2, GoMap.canon s = GoMap.canon s2 →
      (mergeChangesRange s (e :: M)).map GoMap.canon
        = (mergeChangesRange s2 (insertByKey e M)).map GoMap.canon := by
  induction M with
  | nil =>
    intro s s2 hs
    exact mergeChangesRange_congr_same [e]
      (fun x hx => by rw [List.mem_singleton] at hx; subst hx; exact he) s s2 hs
  | cons x rest ih =>
    intro s s2 hs
    have hx : MergeCongr x.2 x.2 := hM x (List.mem_cons_self _ _)
    have hrest : ∀ y ∈ rest, MergeCongr y.2 y.2 := fun y hy => hM y (List.mem_cons_of_mem _ hy)
    by_cases hlt : x.1 < e.1
    · have hne : e.1 ≠ x.1 := (ne_of_lt hlt).symm
      have h1 : (mergeChangesRange s (e :: x :: rest)).map GoMap.canon
          = (mergeChangesRange s (x :: e :: rest)).map GoMap.canon := by
        simp only [mergeChangesRange_cons]
        rw [← Option.bind_assoc, ← Option.bind_assoc]
        exact bind_canon_congr _ _ _ _ (mergeStep_comm s e x hne)
          (mergeChangesRange_congr_same rest hrest)
      rw [h1]
      simp only [insertByKey, hlt, if_true]
      rw [mergeChangesRange_cons, mergeChangesRange_cons]
      exact bind_canon_congr _ _ _ _ (mergeStep_congr s s2 x x hs rfl hx) (ih hrest)
    · simp only [insertByKey, hlt, if_false]
      exact mergeChangesRange_congr_same (e :: x :: rest)
        (fun y hy => by
          rcases List.mem_cons.1 hy with rfl | hy
          · exact he
          · exact hM y hy) s s2 hs

theorem mergeChangesRange_sortByKey (c : Fields) (h : ∀ e ∈ c, MergeCongr e.2 e.2) :
    ∀ s s2, GoMap.canon s = GoMap.canon s2 →
      (mergeChangesRange s c).map GoMap.canon
        = (mergeChangesRange s2 (sortByKey c)).map GoMap.canon := by
  induction c with
  | nil =>
    intro s s2 hs
    exact mergeChangesRange_congr_same [] (fun e he => absurd he (List.not_mem_nil e)) s s2 hs
  | cons e rest ih =>
    intro s s2 hs
    have he : MergeCongr e.2 e.2 := h e (List.mem_cons_self _ _)
    have hrest : ∀ y ∈ rest, MergeCongr y.2 y.2 := fun y hy => h y (List.mem_cons_of_mem _ hy)
    have h1 : (mergeChangesRange s (e :: rest)).map GoMap.canon
        = (mergeChangesRange s (e :: sortByKey rest)).map GoMap.canon := by
      rw [mergeChangesRange_cons, mergeChangesRange_cons]
      exact bind_canon_congr _ _ _ _ rfl (ih hrest)
    rw [h1, sortByKey]
    exact mergeChangesRange_insertByKey e he (sortByKey rest)
      (fun x hx => hrest x ((mem_sortByKey x rest).1 hx)) s s2 hs

/-! ## The array loop under a change of enumeration -/

theorem canon_eq_null (v : Value) (h : Value.canon v = Value.null) : v = Value.null := by
  cases v <;> simp [Value.canon] at h ⊢

theorem isNil_congr (x y : Value) (h : Value.canon x = Value.canon y) :
    Value.isNil x = Value.isNil y := by
  rw [← isNil_canon x, ← isNil_canon y, h]

theorem canonElems_length (l : List Value) : (canonElems l).length = l.length := by
  rw [canonElems_eq_map, List.length_map]

theorem findInArrayFrom_cases (f id : String) (l : List Value) :
    ∀ i, findInArrayFrom f id i l = (-1, Value.null) ∨
      ∃ (p : Nat) (el : Value), findInArrayFrom f id i l = ((p : Int), el) ∧
        Value.isNil el = false := by
  induction l with
  | nil => intro i; left; rfl
  | cons e rest ih =>
    intro i
    rw [findInArrayFrom]
    by_cases h : Value.eqString (GoMap.index (Value.asMap e) f) id = true
    · right
      refine ⟨i, e, by simp [h], ?_⟩
      cases e <;> simp [Value.asMap, Value.assertMap, GoMap.index, GoMap.lookup, Value.eqString,
        Value.isNil] at h ⊢
    · simp only [h, if_false]
      exact ih (i + 1)

theorem findInArrayFrom_congr (f id : String) (l : List Value) :
    ∀ (l2 : List Value) (i : Nat), canonElems l = canonElems l2 →
      (findInArrayFrom f id i l).1 = (findInArrayFrom f id i l2).1 ∧
      Value.canon (findInArrayFrom f id i l).2 = Value.canon (findInArrayFrom f id i l2).2 := by
  induction l with
  | nil =>
    intro l2 i h
    cases l2 with
    | nil => exact ⟨rfl, rfl⟩
    | cons e2 rest2 => simp [canonElems] at h
  | cons e rest ih =>
    intro l2 i h
    cases l2 with
    | nil => simp [canonElems] at h
    | cons e2 rest2 =>
      simp only [canonElems, List.cons.injEq] at h
      have htest : Value.eqString (GoMap.index (Value.asMap e) f) id
          = Value.eqString (GoMap.index (Value.asMap e2) f) id := by
        have h1 : Value.eqString (identityOf f e) id = Value.eqString (identityOf f e2) id := by
          rw [← eqString_canon (identityOf f e), ← identityOf_canon, h.1, identityOf_canon,
            eqString_canon]
        exact h1
      rw [findInArrayFrom, findInArrayFrom]
      simp only [htest]
      by_cases ht : Value.eqString (GoMap.index (Value.asMap e2) f) id = true
      · simp [ht, h.1]
      · simp only [ht, if_false]
        exact ih rest2 (i + 1) h.2

theorem canonElems_append (a b : List Value) :
    canonElems (a ++ b) = canonElems a ++ canonElems b := by
  simp [canonElems_eq_map]

theorem canonElems_set (l : List Value) (p : Nat) (v : Value) :
    canonElems (l.set p v) = (canonElems l).set p (Value.canon v) := by
  simp [canonElems_eq_map, List.map_set]

theorem canonElems_eraseIdx (l : List Value) (p : Nat) :
    canonElems (l.eraseIdx p) = (canonElems l).eraseIdx p := by
  simp [canonElems_eq_map, List.eraseIdx_eq_take_drop_succ, List.map_take, List.map_drop]

theorem lookup_null_congr (ch ch2 : GoMap) (k : String) (h : GoMap.canon ch = GoMap.canon ch2)
    (hv : GoMap.lookup ch k = some Value.null) : GoMap.lookup ch2 k = some Value.null := by
  have h1 : (GoMap.lookup ch k).map Value.canon = (GoMap.lookup ch2 k).map Value.canon := by
    rw [← lookup_canon, ← lookup_canon, h]
  rw [hv] at h1
  cases h2 : GoMap.lookup ch2 k with
  | none => rw [h2] at h1; simp at h1
  | some v =>
    rw [h2] at h1
    simp only [Option.map_some', Option.some.injEq] at h1
    rw [canon_eq_null v h1.symm]

theorem mergeArraysRange_congr (f : String) (l l2 : List Value)
    (h : List.Forall₂ (fun c c2 => Value.canon c = Value.canon c2 ∧ MergeCongr c c2) l l2) :
    ∀ src src2, canonElems src = canonElems src2 →
      (mergeArraysRange f src l).map canonElems
        = (mergeArraysRange f src2 l2).map canonElems := by
  induction h with
  | nil =>
    intro src src2 hs
    rw [mergeArraysRange, mergeArraysRange]
    simp [hs]
  | @cons c c2 rest rest2 hc _ ih =>
    intro src src2 hs
    obtain ⟨hcc, hm⟩ := hc
    have ham : (Value.assertMap c).map GoMap.canon = (Value.assertMap c2).map GoMap.canon := by
      rw [← assertMap_canon, ← assertMap_canon, hcc]
    cases ha : Value.assertMap c with
    | none =>
      cases ha2 : Value.assertMap c2 with
      | none =>
        rw [mergeArraysRange, mergeArraysRange]
        simp [ha, ha2]
      | some ch2 => rw [ha, ha2] at ham; simp at ham
    | some ch =>
      cases ha2 : Value.assertMap c2 with
      | none => rw [ha, ha2] at ham; simp at ham
      | some ch2 =>
        rw [ha, ha2] at ham
        simp only [Option.map_some', Option.some.injEq] at ham
        have hid : Sprint (GoMap.index ch f) = Sprint (GoMap.index ch2 f) :=
          Sprint_congr _ _ (by rw [← index_canon, ← index_canon, ham])
        have hfc := findInArrayFrom_congr f (Sprint (GoMap.index ch f)) src src2 0 hs
        rcases findInArrayFrom_cases f (Sprint (GoMap.index ch f)) src 0 with
          hnot | ⟨p, el, hfound, hel⟩
        · have hnot2 : findInArray f (Sprint (GoMap.index ch2 f)) src2 = (-1, Value.null) := by
            rw [← hid, findInArray]
            rw [hnot] at hfc
            exact Prod.ext hfc.1.symm (canon_eq_null _ hfc.2.symm)
          rw [mergeArraysRange_append f src c ch rest ha hnot,
            mergeArraysRange_append f src2 c2 ch2 rest2 ha2 hnot2]
          exact ih _ _ (by
            rw [canonElems_append, canonElems_append, hs]
            simp [canonElems, hcc])
        · rw [hfound] at hfc
          have hfound2 : findInArray f (Sprint (GoMap.index ch2 f)) src2
              = ((p : Int), (findInArrayFrom f (Sprint (GoMap.index ch f)) 0 src2).2) := by
            rw [← hid, findInArray]
            exact Prod.ext hfc.1.symm rfl
          have hel2 : Value.isNil (findInArrayFrom f (Sprint (GoMap.index ch f)) 0 src2).2
              = false := by
            rw [← isNil_congr _ _ hfc.2]
            exact hel
          by_cases hdel : GoMap.lookup ch "value" = some Value.null
          · rw [mergeArraysRange_delete f src c ch rest p el ha hfound hel hdel,
              mergeArraysRange_delete f src2 c2 ch2 rest2 p _ ha2 hfound2 hel2
                (lookup_null_congr ch ch2 "value" ham hdel)]
            exact ih _ _ (by rw [canonElems_eraseIdx, canonElems_eraseIdx, hs])
          · have hdel2 : GoMap.lookup ch2 "value" ≠ some Value.null :=
              fun h2 => hdel (lookup_null_congr ch2 ch "value" ham.symm h2)
            rw [mergeArraysRange_merge f src c ch rest p el ha hfound hel hdel,
              mergeArraysRange_merge f src2 c2 ch2 rest2 p _ ha2 hfound2 hel2 hdel2]
            have hmm := hm _ _ hfc.2
            cases h1 : mergeChanges el c with
            | none =>
              cases h2 : mergeChanges (findInArrayFrom f (Sprint (GoMap.index ch f)) 0 src2).2 c2 with
              | none => rfl
              | some r2 => rw [h1, h2] at hmm; simp at hmm
            | some r =>
              cases h2 : mergeChanges (findInArrayFrom f (Sprint (GoMap.index ch f)) 0 src2).2 c2 with
              | none => rw [h1, h2] at hmm; simp at hmm
              | some r2 =>
                rw [h1, h2] at hmm
                simp only [Option.map_some', Option.some.injEq] at hmm
                exact ih _ _ (by rw [canonElems_set, canonElems_set, hs, hmm])

theorem canonElems_of_pointwise (l l2 : List Value)
    (h : List.Forall₂ (fun c c2 => Value.canon c = Value.canon c2 ∧ MergeCongr c c2) l l2) :
    canonElems l = canonElems l2 := by
  induction h with
  | nil => rfl
  | cons hx _ ih => simp [canonElems, hx.1, ih]

theorem mergeArrays_congr (l l2 : List Value)
    (h : List.Forall₂ (fun c c2 => Value.canon c = Value.canon c2 ∧ MergeCongr c c2) l l2)
    (src src2 : List Value) (hs : canonElems src = canonElems src2) :
    (mergeArrays src l).map Value.canon = (mergeArrays src2 l2).map Value.canon := by
  cases h with
  | nil => rw [mergeArrays, mergeArrays]
  | @cons c c2 rest rest2 hc hrest =>
    have hall : List.Forall₂ (fun c c2 => Value.canon c = Value.canon c2 ∧ MergeCongr c c2)
        (c :: rest) (c2 :: rest2) := List.Forall₂.cons hc hrest
    have hlist : canonElems (c :: rest) = canonElems (c2 :: rest2) :=
      canonElems_of_pointwise _ _ hall
    have ham : (Value.assertMap c).map GoMap.canon = (Value.assertMap c2).map GoMap.canon := by
      rw [← assertMap_canon, ← assertMap_canon, hc.1]
    rw [mergeArrays, mergeArrays]
    cases ha : Value.assertMap c with
    | none =>
      cases ha2 : Value.assertMap c2 with
      | none => simp [Value.canon, hlist]
      | some ch2 => rw [ha, ha2] at ham; simp at ham
    | some ch =>
      cases ha2 : Value.assertMap c2 with
      | none => rw [ha, ha2] at ham; simp at ham
      | some ch2 =>
        rw [ha, ha2] at ham
        simp only [Option.map_some', Option.some.injEq] at ham
        have hf : chooseIdString ch = chooseIdString ch2 := by
          rw [← chooseIdString_canon ch, ← chooseIdString_canon ch2, ham]
        have := mergeArraysRange_congr (chooseIdString ch) _ _ hall src src2 hs
        simp only [Option.map_map]
        rw [hf] at this ⊢
        have hfun : (Value.canon ∘ Value.seq) = (Value.seq ∘ canonElems) := by
          funext x; simp [Value.canon]
        rw [hfun, ← Option.map_map, ← Option.map_map, this]

/-! ## The merge under a change of enumeration -/

theorem pointwise_of_canonFields (L : Fields) :
    ∀ L2 : Fields, canonFields L = canonFields L2 →
      (∀ e ∈ L, ∀ w, Value.canon w = Value.canon e.2 → MergeCongr e.2 w) →
      List.Forall₂ (fun e e2 => e.1 = e2.1 ∧ MergeCongr e.2 e2.2) L L2 := by
  induction L with
  | nil =>
    intro L2 h _
    cases L2 with
    | nil => exact List.Forall₂.nil
    | cons e2 rest2 =>
      obtain ⟨k2, v2⟩ := e2
      simp [canonFields] at h
  | cons e rest ih =>
    intro L2 h hP
    obtain ⟨k, v⟩ := e
    cases L2 with
    | nil => simp [canonFields] at h
    | cons e2 rest2 =>
      obtain ⟨k2, v2⟩ := e2
      simp only [canonFields, List.cons.injEq, Prod.mk.injEq] at h
      exact List.Forall₂.cons ⟨h.1.1, hP (k, v) (List.mem_cons_self _ _) v2 h.1.2.symm⟩
        (ih rest2 h.2 (fun x hx => hP x (List.mem_cons_of_mem _ hx)))

theorem pointwise_of_canonElems (l : List Value) :
    ∀ l2 : List Value, canonElems l = canonElems l2 →
      (∀ e ∈ l, ∀ w, Value.canon w = Value.canon e → MergeCongr e w) →
      List.Forall₂ (fun c c2 => Value.canon c = Value.canon c2 ∧ MergeCongr c c2) l l2 := by
  induction l with
  | nil =>
    intro l2 h _
    cases l2 with
    | nil => exact List.Forall₂.nil
    | cons e2 rest2 => simp [canonElems] at h
  | cons e rest ih =>
    intro l2 h hP
    cases l2 with
    | nil => simp [canonElems] at h
    | cons e2 rest2 =>
      simp only [canonElems, List.cons.injEq] at h
      exact List.Forall₂.cons ⟨h.1, hP e (List.mem_cons_self _ _) e2 h.1.symm⟩
        (ih rest2 h.2 (fun x hx => hP x (List.mem_cons_of_mem _ hx)))

theorem canonFields_sortByKey (L : Fields) :
    canonFields (sortByKey L) = sortByKey (canonFields L) := by
  rw [canonFields_eq_map, canonFields_eq_map]
  exact (sortByKey_map Value.canon L).symm

theorem mergeCongr_self_of (v w : Value) (h : MergeCongr v w) : MergeCongr w w := by
  intro x y hxy
  rw [← h x x rfl, h x y hxy]

theorem mergeChangesRange_canon_congr (c c2 : Fields)
    (hc : sortByKey (canonFields c) = sortByKey (canonFields c2))
    (hP : ∀ e ∈ c, ∀ w, Value.canon w = Value.canon e.2 → MergeCongr e.2 w)
    (s s2 : GoMap) (hs : GoMap.canon s = GoMap.canon s2) :
    (mergeChangesRange s c).map GoMap.canon = (mergeChangesRange s2 c2).map GoMap.canon := by
  have h1 : ∀ e ∈ c, MergeCongr e.2 e.2 := fun e he => hP e he e.2 rfl
  have h2 : ∀ e2 ∈ c2, MergeCongr e2.2 e2.2 := by
    intro e2 he2
    have hmem : (e2.1, Value.canon e2.2) ∈ sortByKey (canonFields c) := by
      rw [hc, mem_sortByKey, canonFields_eq_map]
      exact List.mem_map_of_mem (fun e => (e.1, Value.canon e.2)) he2
    rw [mem_sortByKey, canonFields_eq_map, List.mem_map] at hmem
    obtain ⟨e, he, heq⟩ := hmem
    simp only [Prod.mk.injEq] at heq
    exact mergeCongr_self_of e.2 e2.2 (hP e he e2.2 heq.2.symm)
  have hpt : List.Forall₂ (fun e e2 => e.1 = e2.1 ∧ MergeCongr e.2 e2.2)
      (sortByKey c) (sortByKey c2) :=
    pointwise_of_canonFields (sortByKey c) (sortByKey c2)
      (by rw [canonFields_sortByKey, canonFields_sortByKey, hc])
      (fun e he => hP e ((mem_sortByKey e c).1 he))
  rw [mergeChangesRange_sortByKey c h1 s s rfl, mergeChangesRange_sortByKey c2 h2 s2 s2 rfl]
  exact mergeChangesRange_congr _ _ hpt s s2 hs

theorem mergeCongr_of_canon : ∀ v w : Value, Value.canon w = Value.canon v → MergeCongr v w := by
  intro v
  induction v using Value.deepInduction with
  | hnull =>
    intro w hw x y hxy
    have := canon_eq_null w hw
    subst this
    have hn := isNil_congr x y hxy
    rw [mergeChanges, mergeChanges]
    simp [hn]
  | hstr s =>
    intro w hw x y hxy
    have : w = Value.str s := by cases w <;> simp [Value.canon] at hw ⊢; exact hw
    subst this
    have hn := isNil_congr x y hxy
    rw [mergeChanges, mergeChanges]
    simp [hn]
  | hnum n =>
    intro w hw x y hxy
    have : w = Value.num n := by cases w <;> simp [Value.canon] at hw ⊢; exact hw
    subst this
    have hn := isNil_congr x y hxy
    rw [mergeChanges, mergeChanges]
    simp [hn]
  | hbool b =>
    intro w hw x y hxy
    have : w = Value.bool b := by cases w <;> simp [Value.canon] at hw ⊢; exact hw
    subst this
    have hn := isNil_congr x y hxy
    rw [mergeChanges, mergeChanges]
    simp [hn]
  | hnilmap =>
    intro w hw x y hxy
    have : w = Value.nilmap := by cases w <;> simp [Value.canon] at hw ⊢
    subst this
    have hn := isNil_congr x y hxy
    have hmap : GoMap.canon (Value.asMap x) = GoMap.canon (Value.asMap y) := by
      rw [← asMap_canon, ← asMap_canon, hxy]
    rw [mergeChanges, mergeChanges]
    by_cases hx : Value.isNil x = true
    · simp [hx, ← hn]
    · have hx2 : Value.isNil x = false := by simpa using hx
      simp [hx2, ← hn, canon_toValue, hmap]
  | hmap m ih =>
    intro w hw x y hxy
    have hw2 : ∃ m2, w = Value.map m2 ∧ sortByKey (canonFields m) = sortByKey (canonFields m2) := by
      cases w <;> simp [Value.canon] at hw ⊢
      exact hw.symm
    obtain ⟨m2, rfl, hm⟩ := hw2
    have hn := isNil_congr x y hxy
    by_cases hx : Value.isNil x = true
    · rw [mergeChanges, mergeChanges]
      simp [hx, ← hn, Value.canon, hm]
    · have hx2 : Value.isNil x = false := by simpa using hx
      rw [mergeChanges_map x m hx2, mergeChanges_map y m2 (hn ▸ hx2)]
      have hmap : GoMap.canon (Value.asMap x) = GoMap.canon (Value.asMap y) := by
        rw [← asMap_canon, ← asMap_canon, hxy]
      have := mergeChangesRange_canon_congr m m2 hm ih _ _ hmap
      simp only [Option.map_map]
      have hfun : (Value.canon ∘ GoMap.toValue) = (GoMap.toValue ∘ GoMap.canon) := by
        funext g; simp [canon_toValue]
      rw [hfun, ← Option.map_map, ← Option.map_map, this]
  | hseq l ih =>
    intro w hw x y hxy
    have hw2 : ∃ l2, w = Value.seq l2 ∧ canonElems l = canonElems l2 := by
      cases w <;> simp [Value.canon] at hw ⊢
      exact hw.symm
    obtain ⟨l2, rfl, hl⟩ := hw2
    have hn := isNil_congr x y hxy
    by_cases hx : Value.isNil x = true
    · rw [mergeChanges, mergeChanges]
      simp [hx, ← hn, Value.canon, hl]
    · have hx2 : Value.isNil x = false := by simpa using hx
      rw [mergeChanges_seq x l hx2, mergeChanges_seq y l2 (hn ▸ hx2)]
      have hsrc : canonElems (Value.asList x) = canonElems (Value.asList y) := by
        rw [← asList_canon, ← asList_canon, hxy]
      have hlen1 : (Value.asList x).length = (Value.asList y).length := by
        rw [← canonElems_length (Value.asList x), hsrc, canonElems_length]
      have hlen2 : l.length = l2.length := by
        rw [← canonElems_length l, hl, canonElems_length]
      rw [← hlen1, ← hlen2]
      split
      · simp [Value.canon, hl]
      · exact mergeArrays_congr l l2 (pointwise_of_canonElems l l2 hl ih) _ _ hsrc

theorem canon_map_of_perm (c c2 : Fields) (hp : c.Perm c2) (hnd : (c.map Prod.fst).Nodup) :
    Value.canon (Value.map c) = Value.canon (Value.map c2) := by
  rw [Value.canon, Value.canon, canonFields_eq_map, canonFields_eq_map]
  congr 1
  apply sortByKey_perm _ _ (hp.map _)
  rw [List.map_map]
  exact hnd

/-! ## C15: the order of the keys -/

/-- C15: the outcome of mergeResources, and of the mapping case of mergeChanges
on any existing value, does not depend on the order in which the entries of
the mappings are enumerated, at any depth: when source and changes are two
enumerations of the same documents, both runs abort or both return, and the
results are two enumerations of the same document, with the same value (up to
enumeration) at every key.  Two orders of visiting the keys of one changes
mapping with distinct keys are such a pair. -/
theorem key_order_determinism (source source2 changes changes2 : Fields)
    (hs : Value.canon (Value.map source) = Value.canon (Value.map source2))
    (hc : Value.canon (Value.map changes) = Value.canon (Value.map changes2)) :
    (mergeResources (some source) changes).map GoMap.canon
      = (mergeResources (some source2) changes2).map GoMap.canon ∧
    (∀ r r2, mergeResources (some source) changes = some (some r) →
      mergeResources (some source2) changes2 = some (some r2) →
      ∀ k, (lookupField r k).map Value.canon = (lookupField r2 k).map Value.canon) ∧
    (∀ x y, Value.canon x = Value.canon y →
      (mergeChanges x (Value.map changes)).map Value.canon
        = (mergeChanges y (Value.map changes2)).map Value.canon) ∧
    (∀ changes3 : Fields, changes.Perm changes3 → (changes.map Prod.fst).Nodup →
      (mergeResources (some source) changes).map GoMap.canon
        = (mergeResources (some source) changes3).map GoMap.canon) := by
  have hcong := mergeCongr_of_canon (Value.map changes) (Value.map changes2) hc.symm
  have hmain : ∀ (s s2 c c2 : Fields),
      Value.canon (Value.map s) = Value.canon (Value.map s2) →
      Value.canon (Value.map c) = Value.canon (Value.map c2) →
      (mergeResources (some s) c).map GoMap.canon
        = (mergeResources (some s2) c2).map GoMap.canon := by
    intro s s2 c c2 h1 h2
    have h := mergeCongr_of_canon (Value.map c) (Value.map c2) h2.symm _ _ h1
    rw [mergeChanges_map (Value.map s) c rfl, mergeChanges_map (Value.map s2) c2 rfl] at h
    simp only [Value.asMap, Value.assertMap, Option.getD_some, Option.map_map] at h
    rw [mergeResources_eq_range, mergeResources_eq_range]
    cases h1 : mergeChangesRange (some s) c with
    | none =>
      cases h2 : mergeChangesRange (some s2) c2 with
      | none => rfl
      | some g2 => rw [h1, h2] at h; simp at h
    | some g =>
      cases h2 : mergeChangesRange (some s2) c2 with
      | none => rw [h1, h2] at h; simp at h
      | some g2 =>
        rw [h1, h2] at h
        simp only [Option.map_some', Function.comp_apply, Option.some.injEq, canon_toValue] at h
        simp only [Option.map_some', Option.some.injEq]
        cases hg : GoMap.canon g <;> cases hg2 : GoMap.canon g2 <;>
          simp [hg, hg2, GoMap.toValue] at h ⊢
        exact h
  refine ⟨hmain _ _ _ _ hs hc, ?_, hcong, ?_⟩
  · intro r r2 hr hr2 k
    have h := hmain _ _ _ _ hs hc
    rw [hr, hr2] at h
    simp only [Option.map_some', Option.some.injEq, GoMap.canon] at h
    have h2 := congrArg (fun L => lookupField L k) h
    simpa [lookupField_sortByKey, lookupField_canonFields] using h2
  · intro changes3 hp hnd
    exact hmain _ _ _ _ rfl (canon_map_of_perm changes changes3 hp hnd)

theorem key_order_determinism_witness :
    mergeResources (some [("a", Value.map [("x", Value.int 1)])])
        [("a", Value.map [("y", Value.float 2), ("z", Value.float 3)]), ("b", Value.float 4)]
      = some (some [("a", Value.map [("x", Value.int 1), ("y", Value.float 2), ("z", Value.float 3)]),
          ("b", Value.float 4)]) ∧
    mergeResources (some [("a", Value.map [("x", Value.int 1)])])
        [("b", Value.float 4), ("a", Value.map [("z", Value.float 3), ("y", Value.float 2)])]
      = some (some [("a", Value.map [("x", Value.int 1), ("z", Value.float 3), ("y", Value.float 2)]),
          ("b", Value.float 4)]) ∧
    (mergeResources (some [("a", Value.map [("x", Value.int 1)])])
        [("a", Value.map [("y", Value.float 2), ("z", Value.float 3)]), ("b", Value.float 4)]).map
        GoMap.canon
      = (mergeResources (some [("a", Value.map [("x", Value.int 1)])])
        [("b", Value.float 4), ("a", Value.map [("z", Value.float 3), ("y", Value.float 2)])]).map
        GoMap.canon :=
  ⟨by simp [mergeResources, mergeChanges, mergeChangesRange, GoMap.index, GoMap.lookup,
      lookupField, GoMap.assign, assignField, Value.isNil, Value.asMap, Value.assertMap,
      GoMap.toValue],
   by simp [mergeResources, mergeChanges, mergeChangesRange, GoMap.index, GoMap.lookup,
      lookupField, GoMap.assign, assignField, Value.isNil, Value.asMap, Value.assertMap,
      GoMap.toValue],
   (key_order_determinism [("a", Value.map [("x", Value.int 1)])]
      [("a", Value.map [("x", Value.int 1)])]
      [("a", Value.map [("y", Value.float 2), ("z", Value.float 3)]), ("b", Value.float 4)]
      [("b", Value.float 4), ("a", Value.map [("z", Value.float 3), ("y", Value.float 2)])]
      rfl
      (by simp +decide [Value.canon, canonFields, sortByKey, insertByKey])).1⟩

/-! ## C16: the no-op patch -/

/-- C16: mergeResources with the empty changes mapping returns source itself. -/
theorem noop_patch (source : Fields) :
    mergeResources (some source) [] = some (some source) := by
  rw [mergeResources]

/-! ## C17: changes meet the current state -/

/-- C17 fails on the code: when the second change holds a mapping where the
first, by then appended to source, holds a scalar, the merge of the second
into the first assigns into a nil map (pod.go 139-142) and mergeArrays aborts
instead of returning source followed by the merged element. -/
theorem current_state_merge_aborts :
    mergeArrays [Value.map [("name", Value.str "a")]]
      [Value.map [("name", Value.str "x"), ("v", Value.float 1)],
       Value.map [("name", Value.str "x"), ("v", Value.map [("a", Value.float 1)])]] = none := by
  have hid : chooseIdString (some [("name", Value.str "x"), ("v", Value.float 1)]) = "name" := by
    simp [chooseIdString, GoMap.lookup, lookupField]
  have hfind1 : findInArray "name"
      (Sprint (GoMap.index (some [("name", Value.str "x"), ("v", Value.float 1)]) "name"))
      [Value.map [("name", Value.str "a")]] = (-1, Value.null) := by
    simp [findInArray, findInArrayFrom, Sprint, GoMap.lookup, GoMap.index, lookupField,
      Value.eqString, Value.assertMap, Value.asMap]
  have hfind2 : findInArray "name"
      (Sprint (GoMap.index
        (some [("name", Value.str "x"), ("v", Value.map [("a", Value.float 1)])]) "name"))
      ([Value.map [("name", Value.str "a")]] ++
        [Value.map [("name", Value.str "x"), ("v", Value.float 1)]])
      = (((1 : Nat) : Int), Value.map [("name", Value.str "x"), ("v", Value.float 1)]) := by
    simp [findInArray, findInArrayFrom, Sprint, GoMap.lookup, GoMap.index, lookupField,
      Value.eqString, Value.assertMap, Value.asMap]
  have hmerge : mergeChanges (Value.map [("name", Value.str "x"), ("v", Value.float 1)])
      (Value.map [("name", Value.str "x"), ("v", Value.map [("a", Value.float 1)])]) = none := by
    simp [mergeChanges, mergeChangesRange, GoMap.lookup, GoMap.index, GoMap.assign,
      lookupField, assignField, Value.isNil, Value.assertMap, Value.asMap]
  rw [mergeArrays]
  simp only [Value.assertMap]
  rw [hid, mergeArraysRange_append "name" [Value.map [("name", Value.str "a")]]
      (Value.map [("name", Value.str "x"), ("v", Value.float 1)])
      (some [("name", Value.str "x"), ("v", Value.float 1)]) _ rfl hfind1,
    mergeArraysRange_merge "name" _
      (Value.map [("name", Value.str "x"), ("v", Value.map [("a", Value.float 1)])])
      (some [("name", Value.str "x"), ("v", Value.map [("a", Value.float 1)])]) [] 1
      (Value.map [("name", Value.str "x"), ("v", Value.float 1)]) rfl hfind2 rfl
      (by simp [GoMap.lookup, lookupField]), hmerge]
  rfl

/-- Changes meet the current state wherever the element merge returns: with no
element of source holding the identity x, two changes c1 and c2 of identity x,
the second without a null `value`, make mergeArrays return source followed by
the one element that merging c2 into c1 returns; it aborts exactly when that
merge aborts. -/
theorem current_state_merge (source : List Value) (c1 c2 : Fields) (x : String)
    (hid1 : lookupField c1 (chooseIdString (some c1)) = some (Value.str x))
    (hid2 : lookupField c2 (chooseIdString (some c1)) = some (Value.str x))
    (hval : lookupField c2 "value" ≠ some Value.null)
    (hsrc : ∀ e ∈ source, identityOf (chooseIdString (some c1)) e ≠ Value.str x) :
    mergeArrays source [Value.map c1, Value.map c2]
      = (mergeChanges (Value.map c1) (Value.map c2)).map
          (fun merged => Value.seq (source ++ [merged])) ∧
    ∀ merged, (source ++ [merged]).length = source.length + 1 := by
  refine ⟨?_, fun merged => by simp⟩
  have hsp1 : Sprint (GoMap.index (some c1) (chooseIdString (some c1))) = x := by
    simp [GoMap.index, GoMap.lookup, hid1, Sprint]
  have hsp2 : Sprint (GoMap.index (some c2) (chooseIdString (some c1))) = x := by
    simp [GoMap.index, GoMap.lookup, hid2, Sprint]
  have hpre : ∀ e ∈ source,
      Value.eqString (identityOf (chooseIdString (some c1)) e) x = false :=
    fun e he => eqString_eq_false_of_ne _ _ (hsrc e he)
  have hfind1 : findInArray (chooseIdString (some c1))
      (Sprint (GoMap.index (some c1) (chooseIdString (some c1)))) source
      = (-1, Value.null) := by
    rw [hsp1, findInArray]
    exact findInArrayFrom_none _ _ source 0 hpre
  have hfind2 : findInArray (chooseIdString (some c1))
      (Sprint (GoMap.index (some c2) (chooseIdString (some c1)))) (source ++ [Value.map c1])
      = ((source.length : Int), Value.map c1) := by
    rw [hsp2, findInArray]
    have := findInArrayFrom_found (chooseIdString (some c1)) x source (Value.map c1) [] 0 hpre
      ((eqString_eq_true_iff _ _).2 (identityOf_map _ c1 _ hid1))
    simpa using this
  rw [mergeArrays]
  simp only [Value.assertMap]
  rw [mergeArraysRange_append _ source (Value.map c1) (some c1) _ rfl hfind1,
    mergeArraysRange_merge _ _ (Value.map c2) (some c2) [] source.length (Value.map c1) rfl
      hfind2 rfl (by simpa [GoMap.lookup] using hval)]
  cases mergeChanges (Value.map c1) (Value.map c2) with
  | none => rfl
  | some merged =>
    simp only [set_length_append, Option.map_some']
    rw [mergeArraysRange]
    rfl

theorem current_state_merge_witness :
    mergeArrays [Value.map [("name", Value.str "a")]]
        [Value.map [("name", Value.str "x"), ("v", Value.float 1)],
         Value.map [("name", Value.str "x"), ("v", Value.float 2), ("w", Value.float 3)]]
      = some (Value.seq ([Value.map [("name", Value.str "a")]] ++
          [Value.map [("name", Value.str "x"), ("v", Value.float 2), ("w", Value.float 3)]])) := by
  have hmerge : mergeChanges (Value.map [("name", Value.str "x"), ("v", Value.float 1)])
      (Value.map [("name", Value.str "x"), ("v", Value.float 2), ("w", Value.float 3)])
      = some (Value.map [("name", Value.str "x"), ("v", Value.float 2), ("w", Value.float 3)]) := by
    simp [mergeChanges, mergeChangesRange, GoMap.lookup, GoMap.index, GoMap.assign,
      GoMap.toValue, lookupField, assignField, Value.isNil, Value.assertMap, Value.asMap]
  have h := (current_state_merge [Value.map [("name", Value.str "a")]]
    [("name", Value.str "x"), ("v", Value.float 1)]
    [("name", Value.str "x"), ("v", Value.float 2), ("w", Value.float 3)] "x"
    (by simp [chooseIdString, GoMap.lookup, lookupField])
    (by simp [chooseIdString, GoMap.lookup, lookupField])
    (by simp [lookupField])
    (by simp [identityOf, chooseIdString, Value.asMap, Value.assertMap, GoMap.index,
      GoMap.lookup, lookupField])).1
  rw [hmerge] at h
  exact h

/-! ## C18: a deletion request for a missing element -/

/-- C18: a single change with an explicit null `value` whose identity matches
no element of source is appended to source as it is; nothing is removed.  The
identity of the change is the text `fmt.Sprint` prints for its identity field,
and it matches an element whose identity field is that string. -/
theorem deletion_of_missing_appends (source : List Value) (c : Fields)
    (hval : lookupField c "value" = some Value.null)
    (hmiss : ∀ e ∈ source, Value.eqString (identityOf (chooseIdString (some c)) e)
      (Sprint (GoMap.index (some c) (chooseIdString (some c)))) = false) :
    mergeArrays source [Value.map c] = some (Value.seq (source ++ [Value.map c])) ∧
    lookupField c "value" = some Value.null ∧
    (source ++ [Value.map c]).length = source.length + 1 := by
  refine ⟨?_, hval, by simp⟩
  rw [mergeArrays]
  simp only [Value.assertMap]
  have hfind : findInArray (chooseIdString (some c))
      (Sprint (GoMap.index (some c) (chooseIdString (some c)))) source = (-1, Value.null) := by
    rw [findInArray]
    exact findInArrayFrom_none _ _ source 0 hmiss
  rw [mergeArraysRange_append _ source (Value.map c) (some c) [] rfl hfind]
  simp [mergeArraysRange]

theorem deletion_of_missing_appends_witness :
    (mergeArrays [Value.map [("name", Value.str "a"), ("v", Value.int 1)]]
        [Value.map [("name", Value.str "z"), ("value", Value.null)]]
      = some (Value.seq ([Value.map [("name", Value.str "a"), ("v", Value.int 1)]] ++
          [Value.map [("name", Value.str "z"), ("value", Value.null)]])) ∧
    lookupField [("name", Value.str "z"), ("value", Value.null)] "value" = some Value.null ∧
    ([Value.map [("name", Value.str "a"), ("v", Value.int 1)]] ++
      [Value.map [("name", Value.str "z"), ("value", Value.null)]]).length
      = [Value.map [("name", Value.str "a"), ("v", Value.int 1)]].length + 1) ∧
    Sprint (Value.float 1000000) = "1e+06" ∧
    mergeArrays [Value.map [("name", Value.str "1000000")]]
        [Value.map [("name", Value.float 1000000), ("value", Value.null)]]
      = some (Value.seq ([Value.map [("name", Value.str "1000000")]] ++
          [Value.map [("name", Value.float 1000000), ("value", Value.null)]])) :=
  ⟨deletion_of_missing_appends [Value.map [("name", Value.str "a"), ("v", Value.int 1)]]
    [("name", Value.str "z"), ("value", Value.null)]
    (by simp [lookupField])
    (by simp [identityOf, chooseIdString, Sprint, Value.asMap, Value.assertMap, GoMap.index,
      GoMap.lookup, lookupField, Value.eqString]),
   by rw [Sprint]; rfl,
   (deletion_of_missing_appends [Value.map [("name", Value.str "1000000")]]
    [("name", Value.float 1000000), ("value", Value.null)]
    (by simp [lookupField])
    (by
      have hs : Sprint (Value.float 1000000) = "1e+06" := by rw [Sprint]; rfl
      have hid : chooseIdString (some [("name", Value.float 1000000), ("value", Value.null)])
          = "name" := by simp [chooseIdString, GoMap.lookup, lookupField]
      intro e he
      rw [List.mem_singleton] at he
      subst he
      rw [hid]
      simp only [identityOf, Value.asMap, Value.assertMap, Option.getD, GoMap.index, GoMap.lookup,
        lookupField, if_true, hs, Value.eqString]
      decide)).1⟩

/-- The same request deletes when an element of source is named by the text the
number prints as: the identity of the change is compared in its printed form,
and the float64 1000000 prints as `1e+06`. -/
theorem deletion_by_printed_number :
    mergeArrays [Value.map [("name", Value.str "1e+06")], Value.map [("name", Value.str "1000000")]]
        [Value.map [("name", Value.float 1000000), ("value", Value.null)]]
      = some (Value.seq [Value.map [("name", Value.str "1000000")]]) := by
  have hs : Sprint (Value.float 1000000) = "1e+06" := by rw [Sprint]; rfl
  have hid : chooseIdString (some [("name", Value.float 1000000), ("value", Value.null)])
      = "name" := by simp [chooseIdString, GoMap.lookup, lookupField]
  have hfind : findInArray "name"
      (Sprint (GoMap.index (some [("name", Value.float 1000000), ("value", Value.null)]) "name"))
      [Value.map [("name", Value.str "1e+06")], Value.map [("name", Value.str "1000000")]]
      = (((0 : Nat) : Int), Value.map [("name", Value.str "1e+06")]) := by
    have hidx : GoMap.index (some [("name", Value.float 1000000), ("value", Value.null)]) "name"
        = Value.float 1000000 := by simp [GoMap.index, GoMap.lookup, lookupField]
    rw [hidx, hs]
    simp [findInArray, findInArrayFrom, Value.asMap, Value.assertMap, GoMap.index, GoMap.lookup,
      lookupField, Value.eqString]
  rw [mergeArrays]
  simp only [Value.assertMap]
  rw [hid, mergeArraysRange_delete "name" _
    (Value.map [("name", Value.float 1000000), ("value", Value.null)])
    (some [("name", Value.float 1000000), ("value", Value.null)]) [] 0
    (Value.map [("name", Value.str "1e+06")]) rfl hfind rfl (by simp [GoMap.lookup, lookupField])]
  simp [mergeArraysRange]

/-! ## C19: the key set of the merged document -/

/-- C19: whenever mergeResources returns, the keys of the result are exactly the
keys of source together with the keys of changes; a key whose change is the
string "null" stays in the result, bound to Null when source held a non-null
value there and to the string "null" itself when source held none. -/
theorem merged_key_set (source changes : Fields) (result : GoMap)
    (hret : mergeResources (some source) changes = some result) :
    ∃ r, result = some r ∧
      (∀ k, k ∈ r.map Prod.fst ↔ k ∈ source.map Prod.fst ∨ k ∈ changes.map Prod.fst) ∧
      ((changes.map Prod.fst).Nodup → ∀ k, lookupField changes k = some (Value.str "null") →
        (∀ v, lookupField source k = some v → v ≠ Value.null →
          lookupField r k = some Value.null) ∧
        (lookupField source k = none → lookupField r k = some (Value.str "null"))) := by
  have hkeys : ∀ (changes source : Fields) (result : GoMap),
      mergeResources (some source) changes = some result →
      ∃ r, result = some r ∧
        ∀ k, k ∈ r.map Prod.fst ↔ k ∈ source.map Prod.fst ∨ k ∈ changes.map Prod.fst := by
    intro changes
    induction changes with
    | nil =>
      intro source result h
      simp [mergeResources] at h
      exact ⟨source, h.symm, by simp⟩
    | cons e rest ih =>
      intro source result h
      obtain ⟨key, w⟩ := e
      rw [mergeResources] at h
      cases hm : mergeChanges (GoMap.index (some source) key) w with
      | none => simp [hm] at h
      | some merged =>
        simp only [hm, GoMap.assign] at h
        obtain ⟨r, hr, hk⟩ := ih _ result h
        refine ⟨r, hr, fun k => ?_⟩
        rw [hk k, mem_keys_assignField]
        simp only [List.map_cons, List.mem_cons]
        tauto
  obtain ⟨r, hr, hk⟩ := hkeys changes source result hret
  refine ⟨r, hr, hk, ?_⟩
  intro hnd k hnull
  rw [mergeResources_eq_range] at hret
  obtain ⟨r2, hr2, hcase⟩ := mergeChangesRange_field k changes source result hnd hret
  have : r2 = r := by
    rw [hr] at hr2
    exact (Option.some.inj hr2).symm
  subst this
  rcases hcase with ⟨h1, _⟩ | ⟨v2, x, h1, h2, h3⟩
  · rw [hnull] at h1; cases h1
  · rw [hnull] at h1
    cases h1
    constructor
    · intro v hv hvn
      have hidx : GoMap.index (some source) k = v := by
        simp [GoMap.index, GoMap.lookup, hv]
      rw [hidx, mergeChanges_str v "null" ((isNil_eq_false_iff v).2 hvn)] at h2
      simp at h2
      rw [h3, ← h2]
    · intro hnone
      have hidx : GoMap.index (some source) k = Value.null := by
        simp [GoMap.index, GoMap.lookup, hnone]
      rw [hidx, mergeChanges_nil] at h2
      rw [h3, ← Option.some.inj h2]

theorem merged_key_set_witness :
    ∃ r, some [("a", Value.null), ("b", Value.int 2), ("c", Value.str "null")] = some r ∧
      (∀ k, k ∈ r.map Prod.fst ↔ k ∈ [("a", Value.int 1), ("b", Value.int 2)].map Prod.fst ∨
        k ∈ [("a", Value.str "null"), ("c", Value.str "null")].map Prod.fst) ∧
      (([("a", Value.str "null"), ("c", Value.str "null")].map Prod.fst).Nodup → ∀ k,
        lookupField [("a", Value.str "null"), ("c", Value.str "null")] k
          = some (Value.str "null") →
        (∀ v, lookupField [("a", Value.int 1), ("b", Value.int 2)] k = some v →
          v ≠ Value.null → lookupField r k = some Value.null) ∧
        (lookupField [("a", Value.int 1), ("b", Value.int 2)] k = none →
          lookupField r k = some (Value.str "null"))) :=
  merged_key_set [("a", Value.int 1), ("b", Value.int 2)]
    [("a", Value.str "null"), ("c", Value.str "null")]
    (some [("a", Value.null), ("b", Value.int 2), ("c", Value.str "null")])
    (by simp [mergeResources, mergeChanges, GoMap.index, GoMap.lookup, lookupField, GoMap.assign,
      assignField, Value.isNil])

/-! ## C20: re-applying a patch -/

/-- C20: when changes is built only from mappings (keys distinct) and scalars,
with no sequence, no Null and no string "null", and mergeResources returns r,
re-applying the same changes to r returns r again. -/
theorem reapply_idempotent (source changes : Fields) (r : GoMap)
    (hplain : plainFields changes = true)
    (hkeys : Value.uniqueKeys (Value.map changes) = true)
    (hret : mergeResources (some source) changes = some r) :
    mergeResources r changes = some r := by
  simp only [Value.uniqueKeys, Bool.and_eq_true, decide_eq_true_eq] at hkeys
  obtain ⟨hnd, hu⟩ := hkeys
  rw [mergeResources_eq_range] at hret ⊢
  obtain ⟨em2, rfl, _⟩ := mergeChangesRange_field "" changes source r hnd hret
  apply mergeChangesRange_stable
  intro e he
  obtain ⟨em3, h3, hcase⟩ := mergeChangesRange_field e.1 changes source (some em2) hnd hret
  cases h3
  rcases hcase with ⟨h1, _⟩ | ⟨v, x, h1, h2, h3⟩
  · rw [lookupField_of_mem changes hnd e he] at h1; cases h1
  · rw [lookupField_of_mem changes hnd e he] at h1
    cases h1
    exact ⟨x, h3, (mergeChanges_idempotent_aux e.2 (plainFields_mem changes hplain e he)
      (uniqueKeysFields_mem changes hu e he)).2 _ x h2⟩

theorem reapply_idempotent_witness :
    mergeResources (some [("a", Value.int 1), ("b", Value.map [("x", Value.str "y")])])
        [("a", Value.str "z"), ("b", Value.map [("x", Value.float 2), ("w", Value.bool true)])]
      = some (some [("a", Value.str "z"),
          ("b", Value.map [("x", Value.float 2), ("w", Value.bool true)])]) ∧
    mergeResources (some [("a", Value.str "z"),
          ("b", Value.map [("x", Value.float 2), ("w", Value.bool true)])])
        [("a", Value.str "z"), ("b", Value.map [("x", Value.float 2), ("w", Value.bool true)])]
      = some (some [("a", Value.str "z"),
          ("b", Value.map [("x", Value.float 2), ("w", Value.bool true)])]) :=
  have hret : mergeResources
      (some [("a", Value.int 1), ("b", Value.map [("x", Value.str "y")])])
      [("a", Value.str "z"), ("b", Value.map [("x", Value.float 2), ("w", Value.bool true)])]
      = some (some [("a", Value.str "z"),
          ("b", Value.map [("x", Value.float 2), ("w", Value.bool true)])]) := by
    simp [mergeResources, mergeChanges, mergeChangesRange, GoMap.index, GoMap.lookup,
      lookupField, GoMap.assign, assignField, Value.isNil, Value.asMap, Value.assertMap,
      GoMap.toValue]
  ⟨hret, reapply_idempotent [("a", Value.int 1), ("b", Value.map [("x", Value.str "y")])]
    [("a", Value.str "z"), ("b", Value.map [("x", Value.float 2), ("w", Value.bool true)])] _
    (by simp [plainFields, Value.plain]) (by simp [Value.uniqueKeys, uniqueKeysFields]) hret⟩

end Pod
